import Mathlib

/-!
Verification of the numeric gadget layer of `bellpepper` (`bellpepper-core/src/gadgets/num.rs`).

The constraint-system engine, the boolean-bit gadget and the linear-combination type are
external collaborators of the core under verification (they live outside `src/`); they are
modelled here from the specification (sections 2, 3, 4.5 and 6 of the spec).  The scalar
field of the source (`Scalar: PrimeField`) is modelled as `ZMod p` for a prime `p`; its
canonical little-endian bit serialization is the base-two expansion of the canonical
representative `ZMod.val`.

All gadget operations are translated as computable functions in a state monad `CSM` whose
state is the append-only list of witness hints together with the append-only list of
rank-1 constraints.  A constraint-system "mode" distinguishes witness-building backends
(which run the value producers) from structure-only backends (which do not).
-/

set_option maxHeartbeats 1000000

namespace BP

/-- Modelled from the spec: the failure kinds of section 7 that the numeric gadget layer
signals (`SynthesisError` in the source). -/
inductive SynthesisError where
  | AssignmentMissing
  | DivisionByZero
  | Unsatisfiable
deriving DecidableEq, Repr

/-- Modelled from the spec: a witness variable is either the designated constant-one
variable or an auxiliary variable identified by its allocation index. -/
inductive Var where
  | one
  | aux (i : ℕ)
deriving DecidableEq, Repr

/-- Modelled from the spec: a linear combination is a finite weighted sum of variables,
kept as the ordered list of terms produced by the builder calls. -/
abbrev LC (F : Type) := List (Var × F)

/-- Modelled from the spec: one rank-1 constraint `A·x * B·x = C·x`. -/
structure Constraint (F : Type) where
  a : LC F
  b : LC F
  c : LC F
deriving DecidableEq, Repr

/-- Modelled from the spec: the constraint system holds the append-only hint vector for
auxiliary variables (one optional hint per allocated variable, in allocation order) and the
append-only list of registered rank-1 constraints. -/
structure CSState (F : Type) where
  hints : List (Option F)
  constraints : List (Constraint F)
deriving DecidableEq, Repr

/-- Modelled from the spec: a constraint-system backend either builds witnesses (running
the value producers) or only structure (never running them). -/
inductive Mode where
  | setup
  | witness
deriving DecidableEq, Repr

/-- The synthesis monad: state-passing over the constraint system, where mutations made
before a failure are kept (spec section 7: no rollback). -/
def CSM (F : Type) (α : Type) : Type :=
  CSState F → Except SynthesisError α × CSState F

instance : Monad (CSM F) where
  pure a := fun s => (.ok a, s)
  bind x f := fun s =>
    match x s with
    | (.ok a, s₁) => f a s₁
    | (.error e, s₁) => (.error e, s₁)

def throwE (e : SynthesisError) : CSM F α := fun s => (.error e, s)

def ofOption : Option α → Except SynthesisError α
  | some a => .ok a
  | none => .error .AssignmentMissing

def liftE (x : Except SynthesisError α) : CSM F α := fun s => (x, s)

/-- Modelled from the spec: allocation of a fresh auxiliary variable.  A witness-building
backend runs the value producer and stores the produced hint (propagating its failure with
no variable retained); a structure-only backend stores no hint and never runs the
producer.  Returns the fresh variable together with the value the producer yielded. -/
def allocM (m : Mode) (f : Except SynthesisError F) : CSM F (Var × Option F) := fun s =>
  match m with
  | .setup => (.ok (Var.aux s.hints.length, none), ⟨s.hints ++ [none], s.constraints⟩)
  | .witness =>
    match f with
    | .error e => (.error e, s)
    | .ok v =>
      (.ok (Var.aux s.hints.length, some v), ⟨s.hints ++ [some v], s.constraints⟩)

/-- Modelled from the spec: registration of one rank-1 constraint, append-only. -/
def enforceM (a b c : LC F) : CSM F Unit := fun s =>
  (.ok (), ⟨s.hints, s.constraints ++ [⟨a, b, c⟩]⟩)

/-- The field embedding of a boolean bit. -/
def boolF [Zero F] [One F] (b : Bool) : F := if b then 1 else 0

/-- Modelled from the spec: a single-bit witness of the external boolean gadget. -/
structure AllocatedBit (F : Type) where
  value : Option Bool
  var : Var
deriving DecidableEq, Repr

/-- The boolean constraint `(1 - a) * a = 0` registered when allocating a bit. -/
def boolConstraint [One F] [Neg F] (v : Var) : Constraint F :=
  ⟨[(Var.one, 1), (v, -1)], [(v, 1)], []⟩

namespace AllocatedBit

/-- Modelled from the spec: allocation of a boolean witness bit, constrained to `{0,1}`
by the boolean constraint `(1 - a) * a = 0`.  The bit records the passed optional value. -/
def alloc [One F] [Zero F] [Neg F] (m : Mode) (value : Option Bool) :
    CSM F (AllocatedBit F) := do
  let (v, _) ← allocM m ((ofOption value).map boolF)
  enforceM [(Var.one, 1), (v, -1)] [(v, 1)] []
  pure ⟨value, v⟩

/-- Modelled from the spec: logical AND of two allocated bits, allocating the result bit
with hint `a && b` and registering `a * b = result`. -/
def and [One F] [Zero F] (m : Mode) (x y : AllocatedBit F) : CSM F (AllocatedBit F) := do
  let rv : Except SynthesisError Bool :=
    match x.value, y.value with
    | some xv, some yv => .ok (xv && yv)
    | _, _ => .error .AssignmentMissing
  let (v, _) ← allocM m (rv.map boolF)
  enforceM [(x.var, 1)] [(y.var, 1)] [(v, 1)]
  pure ⟨if m = Mode.witness then rv.toOption else none, v⟩

/-- Modelled from the spec (section 4.5, step 3): conditional allocation of a bit that a
constraint couples to `must_be_false`, registering `(1 - must_be_false - a) * a = 0`: when
`must_be_false` is 1 the bit is forced to 0, otherwise the constraint is the ordinary
boolean constraint. -/
def alloc_conditionally [One F] [Zero F] [Neg F] (m : Mode) (value : Option Bool)
    (mbf : AllocatedBit F) : CSM F (AllocatedBit F) := do
  let (v, _) ← allocM m ((ofOption value).map boolF)
  enforceM [(Var.one, 1), (mbf.var, -1), (v, -1)] [(v, 1)] []
  pure ⟨value, v⟩

end AllocatedBit

/-- Modelled from the spec: the closed variant type of the external Boolean gadget — an
allocated bit, its logical negation, or a literal constant. -/
inductive Boolean (F : Type) where
  | is (b : AllocatedBit F)
  | not (b : AllocatedBit F)
  | const (b : Bool)
deriving DecidableEq, Repr

namespace Boolean

/-- Modelled from the spec: the optional boolean value of a Boolean. -/
def get_value : Boolean F → Option Bool
  | .is b => b.value
  | .not b => b.value.map (fun v => !v)
  | .const b => some b

/-- Modelled from the spec: the weighted linear combination of a Boolean, given the
designated one-variable and a coefficient. -/
def lc [One F] [Neg F] (one : Var) (coeff : F) : Boolean F → LC F
  | .is b => [(b.var, coeff)]
  | .not b => [(one, coeff), (b.var, -coeff)]
  | .const b => if b then [(one, coeff)] else []

end Boolean

/-- A Committed Number: a field value bound to exactly one witness variable
(`AllocatedNum` in the source). -/
structure AllocatedNum (F : Type) where
  value : Option F
  var : Var
deriving DecidableEq, Repr

namespace AllocatedNum

variable [CommRing F] [Inv F] [DecidableEq F]

/-- `AllocatedNum::alloc`: allocate an auxiliary variable from a fallible producer; the
produced value (if any) becomes the instance's hint. -/
def alloc (m : Mode) (f : Except SynthesisError F) : CSM F (AllocatedNum F) := do
  let (v, val) ← allocM m f
  pure ⟨val, v⟩

/-- `AllocatedNum::add`: hint `a + b`, constraint `(a + b) * 1 = result`. -/
def add (m : Mode) (x y : AllocatedNum F) : CSM F (AllocatedNum F) := do
  let (v, val) ← allocM m
    (match x.value, y.value with
     | some a, some b => .ok (a + b)
     | _, _ => .error .AssignmentMissing)
  enforceM [(x.var, 1), (y.var, 1)] [(Var.one, 1)] [(v, 1)]
  pure ⟨val, v⟩

/-- `AllocatedNum::sub`: hint `a - b`, constraint `(a - b) * 1 = result`. -/
def sub (m : Mode) (x y : AllocatedNum F) : CSM F (AllocatedNum F) := do
  let (v, val) ← allocM m
    (match x.value, y.value with
     | some a, some b => .ok (a - b)
     | _, _ => .error .AssignmentMissing)
  enforceM [(x.var, 1), (y.var, -1)] [(Var.one, 1)] [(v, 1)]
  pure ⟨val, v⟩

/-- `AllocatedNum::neg`: hint `-a`, constraint `0 * 0 = a + result`. -/
def neg (m : Mode) (x : AllocatedNum F) : CSM F (AllocatedNum F) := do
  let (v, val) ← allocM m
    (match x.value with
     | some a => .ok (-a)
     | none => .error .AssignmentMissing)
  enforceM [] [] [(x.var, 1), (v, 1)]
  pure ⟨val, v⟩

/-- `AllocatedNum::mul`: hint `a * b`, constraint `a * b = result`. -/
def mul (m : Mode) (x y : AllocatedNum F) : CSM F (AllocatedNum F) := do
  let (v, val) ← allocM m
    (match x.value, y.value with
     | some a, some b => .ok (a * b)
     | _, _ => .error .AssignmentMissing)
  enforceM [(x.var, 1)] [(y.var, 1)] [(v, 1)]
  pure ⟨val, v⟩

/-- The trigger condition of the `assert!` inside `AllocatedNum::div`: the producer runs
(witness mode), both hints are present, and the divisor's hint has no multiplicative
inverse (it is zero).  The source panics there; `div` below computes with the total
inverse instead, so this predicate marks exactly the inputs on which `div` is not a
faithful model of the source. -/
def divAssertTriggered (m : Mode) (x y : AllocatedNum F) : Prop :=
  m = Mode.witness ∧ x.value.isSome ∧ y.value = some 0

instance (m : Mode) (x y : AllocatedNum F) : Decidable (divAssertTriggered m x y) := by
  unfold divAssertTriggered; infer_instance

/-- `AllocatedNum::div`: hint `a * b⁻¹`, constraint `result * b = a`.  The source asserts
that the divisor's hint is invertible (see `divAssertTriggered`). -/
def div (m : Mode) (x y : AllocatedNum F) : CSM F (AllocatedNum F) := do
  let (v, val) ← allocM m
    (match x.value, y.value with
     | some a, some b => .ok (a * b⁻¹)
     | _, _ => .error .AssignmentMissing)
  enforceM [(v, 1)] [(y.var, 1)] [(x.var, 1)]
  pure ⟨val, v⟩

/-- `AllocatedNum::square`: hint `a * a`, constraint `a * a = result`. -/
def square (m : Mode) (x : AllocatedNum F) : CSM F (AllocatedNum F) := do
  let (v, val) ← allocM m
    (match x.value with
     | some a => .ok (a * a)
     | none => .error .AssignmentMissing)
  enforceM [(x.var, 1)] [(x.var, 1)] [(v, 1)]
  pure ⟨val, v⟩

/-- `AllocatedNum::assert_nonzero`: allocate an auxiliary inverse (failing with
`DivisionByZero` on a zero hint) and register `self * inverse = 1`. -/
def assert_nonzero (m : Mode) (x : AllocatedNum F) : CSM F Unit := do
  let (iv, _) ← allocM m
    (match x.value with
     | some t => if t = 0 then .error .DivisionByZero else .ok t⁻¹
     | none => .error .AssignmentMissing)
  enforceM [(x.var, 1)] [(iv, 1)] [(Var.one, 1)]

/-- `AllocatedNum::is_zero`: demands the hint eagerly, allocates the output bit `out`
(hint `self == 0`) and the `multiplier` (hint `self⁻¹` or 0), and registers
`multiplier * self = 1 - out` and `out * self = 0`. -/
def is_zero (m : Mode) (x : AllocatedNum F) : CSM F (Boolean F) := do
  let iv ← liftE (ofOption x.value)
  let out ← AllocatedBit.alloc m (some (decide (iv = 0)))
  let mult ← alloc m
    (match x.value with
     | some t => .ok (if t = 0 then 0 else t⁻¹)
     | none => .error .AssignmentMissing)
  enforceM [(mult.var, 1)] [(x.var, 1)] [(Var.one, 1), (out.var, -1)]
  enforceM [(out.var, 1)] [(x.var, 1)] []
  pure (Boolean.is out)

/-- `AllocatedNum::conditionally_select`: hint `b` when the condition holds else `a`,
constraint `condition * (a - b) = a - result`. -/
def conditionally_select (m : Mode) (x y : AllocatedNum F) (condition : Boolean F) :
    CSM F (AllocatedNum F) := do
  let (v, val) ← allocM m
    (match condition.get_value with
     | some cv => if cv then ofOption y.value else ofOption x.value
     | none => .error .AssignmentMissing)
  enforceM (condition.lc Var.one 1) [(x.var, 1), (y.var, -1)] [(x.var, 1), (v, -1)]
  pure ⟨val, v⟩

/-- `AllocatedNum::mux_tree`: balanced binary selection keyed on the selector bits, first
bit highest order; the current input list must have even length while bits remain, and
length one when none remain. -/
def mux_tree (m : Mode) : List (Boolean F) → List (AllocatedNum F) → CSM F (AllocatedNum F)
  | bit :: bits, inputs =>
    if inputs.length % 2 ≠ 0 then throwE .Unsatisfiable
    else do
      let left ← mux_tree m bits (inputs.take (inputs.length / 2))
      let right ← mux_tree m bits (inputs.drop (inputs.length / 2))
      conditionally_select m left right bit
  | [], inputs =>
    if h : inputs.length = 1 then pure (inputs.get ⟨0, by omega⟩)
    else throwE .Unsatisfiable

end AllocatedNum

/-- A Deferred Number (`Num` in the source): an optional hint and a pending linear
combination. -/
structure Num (F : Type) where
  value : Option F
  lc : LC F

namespace Num

variable [CommRing F]

/-- `Num::zero`: the additive identity with an empty linear combination. -/
def zero : Num F := ⟨some 0, []⟩

/-- `Num::add_bool_with_coeff`: fold a boolean's contribution scaled by `coeff` into the
accumulator; the hint becomes absent if either side's hint is absent. -/
def add_bool_with_coeff (n : Num F) (one : Var) (bit : Boolean F) (coeff : F) : Num F :=
  { value :=
      match n.value, bit.get_value with
      | some curval, some bval => some (if bval then curval + coeff else curval)
      | _, _ => none,
    lc := n.lc ++ bit.lc one coeff }

/-- `Num::add`: merge two accumulators' linear combinations and hints. -/
def add (n other : Num F) : Num F :=
  { value :=
      match n.value, other.value with
      | some v1, some v2 => some (v1 + v2)
      | _, _ => none,
    lc := n.lc ++ other.lc }

end Num

/-! ## Bit serialization and the canonical decomposition protocol -/

/-- The bit length of the field: the number of bits of `characteristic - 1`
(`Scalar::NUM_BITS` of the source, which equals `(p-1).size` for an odd prime `p`). -/
def numBits (p : ℕ) : ℕ := (p - 1).size

/-- Little-endian bit serialization of a natural number at a fixed length. -/
def bitsLE (len n : ℕ) : List Bool := (List.range len).map n.testBit

/-- Big-endian bit sequence (most significant bit first). -/
def bitsBE (len n : ℕ) : List Bool := (bitsLE len n).reverse

/-- The natural number packed from a little-endian bit list. -/
def ofBitsLE : List Bool → ℕ
  | [] => 0
  | b :: rest => (cond b 1 0) + 2 * ofBitsLE rest

/-- Lexicographic comparison of two big-endian bit sequences of equal length:
`lexBE u v` holds when `u ≤ v` at the first position where they differ. -/
def lexBE : List Bool → List Bool → Bool
  | a :: as_, b :: bs => (!a && b) || (a == b && lexBE as_ bs)
  | _, _ => true

/-- Modelled from the spec: `field_into_allocated_bits_le` of the external boolean gadget
allocates one boolean witness per little-endian bit of the value's canonical
representative (`NUM_BITS` bits), each independently constrained to `{0,1}`. -/
def allocBits [One F] [Zero F] [Neg F] (m : Mode) :
    List (Option Bool) → CSM F (List (AllocatedBit F))
  | [] => pure []
  | ob :: rest => do
    let b ← AllocatedBit.alloc m ob
    let bs ← allocBits m rest
    pure (b :: bs)

/-- The packing linear combination `Σ coeff·2^i · bit_i` built with a doubling
coefficient, as in the source's unpacking loop. -/
def packLC [Add F] (coeff : F) : List Var → LC F
  | [] => []
  | v :: rest => (v, coeff) :: packLC (coeff + coeff) rest

/-- `AllocatedNum::to_bits_le` (weak decomposition): allocate the little-endian boolean
witnesses of the value and register the single packing constraint
`0 * 0 = Σ bit_i·2^i - self`. -/
def to_bits_le (p : ℕ) (m : Mode) (x : AllocatedNum (ZMod p)) :
    CSM (ZMod p) (List (Boolean (ZMod p))) := do
  let bits ← allocBits m
    (match x.value with
     | some v => (bitsLE (numBits p) v.val).map some
     | none => List.replicate (numBits p) none)
  enforceM [] [] (packLC 1 (bits.map (·.var)) ++ [(x.var, -1)])
  pure (bits.map Boolean.is)

/-- The run-tracking state of the strict decomposition loop: the collected (big-endian)
result bits, the folded flag of completed runs, the pending run of ones, and whether a
set bound bit has been seen. -/
structure StrictState (F : Type) where
  result : List (AllocatedBit F)
  lastRun : Option (AllocatedBit F)
  currentRun : List (AllocatedBit F)
  foundOne : Bool

/-- The manual AND-folding loop inside `kary_and`: `cur` is the accumulated conjunction. -/
def andFold [One F] [Zero F] (m : Mode) (cur : AllocatedBit F) :
    List (AllocatedBit F) → CSM F (AllocatedBit F)
  | [] => pure cur
  | v :: rest => do
    let c ← AllocatedBit.and m cur v
    andFold m c rest

/-- `kary_and` of the source: conjunction of a nonempty list of bits by iterated AND.
(The source asserts nonemptiness; the empty case is unreachable in the protocol.) -/
def kary_and [One F] [Zero F] (m : Mode) : List (AllocatedBit F) → CSM F (AllocatedBit F)
  | [] => throwE .Unsatisfiable
  | x :: xs => andFold m x xs

/-- The main loop of `to_bits_le_strict`, one step per bound bit (big-endian), paired
with the corresponding optional witness bit.  Leading unset bound bits are skipped (the
source's internal consistency `assert` there is not a constraint and is not modelled);
at a set bound bit the witness bit is allocated freely and joins the current run; at an
unset bound bit the pending run (chained with the previous `last_run`) is folded by
`kary_and` and the witness bit is allocated conditionally on the folded flag.  The
source's `expect` that `last_run` exists is modelled by an error on an unreachable
branch. -/
def strictLoop [One F] [Zero F] [Neg F] (m : Mode) :
    List (Bool × Option Bool) → StrictState F → CSM F (StrictState F)
  | [], st => pure st
  | (b, abit) :: rest, st =>
    if !(st.foundOne || b) then
      strictLoop m rest st
    else
      if b then do
        let bit ← AllocatedBit.alloc m abit
        strictLoop m rest ⟨st.result ++ [bit], st.lastRun, st.currentRun ++ [bit], true⟩
      else do
        let st1 ←
          if st.currentRun.isEmpty then
            pure (⟨st.result, st.lastRun, st.currentRun, true⟩ : StrictState F)
          else do
            let lr ← kary_and m (st.currentRun ++ st.lastRun.toList)
            pure (⟨st.result, some lr, [], true⟩ : StrictState F)
        match st1.lastRun with
        | none => throwE .Unsatisfiable
        | some lr => do
          let bit ← AllocatedBit.alloc_conditionally m abit lr
          strictLoop m rest ⟨st1.result ++ [bit], st1.lastRun, st1.currentRun, true⟩

/-- `AllocatedNum::to_bits_le_strict`: run the strict decomposition protocol against the
big-endian bits of `characteristic - 1` (the canonical representative of `-1`), then
register the packing constraint over the collected bits reversed to little-endian.
(The source's final `assert_eq!(current_run.len(), 0)` always holds for an odd prime
characteristic and is not modelled.) -/
def to_bits_le_strict (p : ℕ) (m : Mode) (x : AllocatedNum (ZMod p)) :
    CSM (ZMod p) (List (Boolean (ZMod p))) := do
  let bbits : List Bool := bitsBE (numBits p) (p - 1)
  let pairs : List (Bool × Option Bool) :=
    match x.value with
    | none => bbits.map (fun b => (b, none))
    | some v => bbits.zip ((bitsBE (numBits p) v.val).map some)
  let st ← strictLoop m pairs ⟨[], none, [], false⟩
  enforceM [] [] (packLC 1 ((st.result.reverse).map (·.var)) ++ [(x.var, -1)])
  pure ((st.result.map Boolean.is).reverse)

/-! ## Semantics: assignments, evaluation, satisfaction -/

/-- Evaluation of a variable under an assignment of the auxiliary variables; the
designated one-variable always evaluates to 1. -/
def evalVar [One F] (σ : ℕ → F) : Var → F
  | .one => 1
  | .aux i => σ i

/-- Evaluation of a linear combination under an assignment. -/
def evalLC [CommRing F] (σ : ℕ → F) (l : LC F) : F :=
  (l.map fun t => t.2 * evalVar σ t.1).sum

/-- Satisfaction of one rank-1 constraint. -/
def satC [CommRing F] (σ : ℕ → F) (c : Constraint F) : Prop :=
  evalLC σ c.a * evalLC σ c.b = evalLC σ c.c

/-- Satisfaction of a list of constraints. -/
def SatAll [CommRing F] (σ : ℕ → F) (L : List (Constraint F)) : Prop :=
  ∀ c ∈ L, satC σ c

/-- The hinted assignment of a constraint system: each auxiliary variable is assigned its
stored hint (0 if absent). -/
def hintAsg [Zero F] (cs : CSState F) : ℕ → F :=
  fun i => (cs.hints.getD i none).getD 0

/-- A variable is bound below index `n`. -/
def VarBound (n : ℕ) : Var → Prop
  | .one => True
  | .aux i => i < n

/-- All variables of a linear combination are bound below `n`. -/
def LCBound (n : ℕ) (l : LC F) : Prop := ∀ t ∈ l, VarBound n t.1

/-- All variables of a constraint are bound below `n`. -/
def CBound (n : ℕ) (c : Constraint F) : Prop :=
  LCBound n c.a ∧ LCBound n c.b ∧ LCBound n c.c

/-- A well-formed, hint-satisfied constraint system: every registered constraint only
mentions allocated variables and holds under the hinted assignment. -/
def GoodCS [CommRing F] (cs : CSState F) : Prop :=
  (∀ c ∈ cs.constraints, CBound cs.hints.length c) ∧ SatAll (hintAsg cs) cs.constraints

/-- `cs'` extends `cs`: its hint vector appends to that of `cs`. -/
def Extends (cs cs' : CSState F) : Prop := ∃ t, cs'.hints = cs.hints ++ t

/-- An allocated bit is realized in a constraint system: its variable is allocated and
hinted with the field embedding of its boolean value. -/
def BitReal [One F] [Zero F] (cs : CSState F) (b : AllocatedBit F) : Prop :=
  ∃ i bv, b.var = Var.aux i ∧ b.value = some bv ∧ cs.hints[i]? = some (some (boolF bv))

/-- A Committed Number is realized in a constraint system: its hint is present, its
variable is bound, and the hinted assignment gives it its hint. -/
def NumReal [CommRing F] (cs : CSState F) (x : AllocatedNum F) : Prop :=
  ∃ v, x.value = some v ∧ VarBound cs.hints.length x.var ∧ evalVar (hintAsg cs) x.var = v

/-- A Boolean is realized in a constraint system: its value is present and its weighted
linear combination evaluates to that value under the hinted assignment. -/
def BoolReal [CommRing F] (cs : CSState F) (β : Boolean F) : Prop :=
  ∃ bv, β.get_value = some bv ∧ LCBound cs.hints.length (β.lc Var.one 1) ∧
    evalLC (hintAsg cs) (β.lc Var.one 1) = boolF bv

/-! ## Statement helpers -/

/-- The structural compatibility of `mux_tree`: `k` selector bits require the input count
to halve evenly `k` times down to exactly one input. -/
def muxShapeOk : ℕ → ℕ → Bool
  | 0, n => n == 1
  | k + 1, n => (n % 2 == 0) && muxShapeOk k (n / 2)

/-- The big-endian integer formed by a list of selector bits (first bit most
significant). -/
def beNat (bs : List Bool) : ℕ := bs.foldl (fun acc b => 2 * acc + cond b 1 0) 0

/-- A chain of Deferred Number operations built from `zero`, `add` and
`add_bool_with_coeff` (the grammar of the absent-hint-propagation invariant). -/
inductive NumExpr (F : Type) where
  | zero
  | addBool (e : NumExpr F) (one : Var) (bit : Boolean F) (coeff : F)
  | add (e₁ e₂ : NumExpr F)

/-- Evaluation of a chain of Deferred Number operations. -/
def NumExpr.run [CommRing F] : NumExpr F → Num F
  | .zero => Num.zero
  | .addBool e one bit coeff => (NumExpr.run e).add_bool_with_coeff one bit coeff
  | .add e₁ e₂ => (NumExpr.run e₁).add (NumExpr.run e₂)

/-- All contributing hints of a chain of Deferred Number operations are present. -/
def NumExpr.allPresent : NumExpr F → Bool
  | .zero => true
  | .addBool e _ bit _ => NumExpr.allPresent e && (bit.get_value).isSome
  | .add e₁ e₂ => NumExpr.allPresent e₁ && NumExpr.allPresent e₂

/-- The conditional-zero invariant of the strict range check, relative to the bound's
big-endian bits: at every position where the bound bit is 0, if the witness matched the
bound at all 1-positions so far, the witness bit must be 0; once a 1-position carries a 0
the remaining positions are unconstrained. -/
def QOk : List Bool → List Bool → Prop
  | [], [] => True
  | true :: bs, a :: as_ => a = true → QOk bs as_
  | false :: bs, a :: as_ => a = false ∧ QOk bs as_
  | _, _ => False

/-- The field-valued form of `QOk` over the assigned values of a list of allocated bits:
at a 0-position of the bound, if every 1-position so far was assigned 1, this position is
assigned 0. -/
def QOkF [CommRing F] (σ : ℕ → F) : List Bool → List (AllocatedBit F) → Prop
  | [], [] => True
  | true :: bs, r :: rs => evalVar σ r.var = 1 → QOkF σ bs rs
  | false :: bs, r :: rs => evalVar σ r.var = 0 ∧ QOkF σ bs rs
  | _, _ => False

/-- An assignment gives every bit in the list the value 1. -/
def AllOnes [CommRing F] (σ : ℕ → F) (l : List (AllocatedBit F)) : Prop :=
  ∀ b ∈ l, evalVar σ b.var = 1

/-- An assignment gives every bit in the list a boolean (0/1) value. -/
def AllBool [CommRing F] (σ : ℕ → F) (l : List (AllocatedBit F)) : Prop :=
  ∀ b ∈ l, evalVar σ b.var = 0 ∨ evalVar σ b.var = 1

/-- The "tight so far" reading of the strict-decomposition loop state under an
assignment: every bit of the pending run is 1 and the folded flag (when present) is 1. -/
def Tight [CommRing F] (σ : ℕ → F) (st : StrictState F) : Prop :=
  AllOnes σ st.currentRun ∧ ∀ l ∈ st.lastRun, evalVar σ l.var = 1

/-- The boolean counterpart of `Tight` on the stored hint values: the conjunction of the
pending run's hints and the folded flag's hint. -/
def tightB (st : StrictState F) : Bool :=
  (st.currentRun.all fun b => b.value.getD false) &&
    (match st.lastRun with
     | none => true
     | some l => l.value.getD false)

/-- The AND-gate constraint `a * b = c` registered by the boolean gadget's `and`. -/
def andConstraint [One F] (a b c : Var) : Constraint F :=
  ⟨[(a, 1)], [(b, 1)], [(c, 1)]⟩

/-- The conditional-bit constraint `(1 - r - v) * v = 0` registered by
`alloc_conditionally`. -/
def condConstraint [One F] [Neg F] (r v : Var) : Constraint F :=
  ⟨[(Var.one, 1), (r, -1), (v, -1)], [(v, 1)], []⟩

/-- The little-endian weighted bit sum `Σ bit_i · 2^i` in the field (Horner form, as the
doubling-coefficient packing loop computes it). -/
def sumBitsF [CommRing F] : List Bool → F
  | [] => 0
  | b :: rest => boolF b + 2 * sumBitsF rest

/-- The weak-decomposition round trip: allocate a Committed Number with hint `x` in an
empty constraint system and run `to_bits_le` on it. -/
def toBitsPipeline (p : ℕ) (m : Mode) (x : ZMod p) :
    Except SynthesisError (List (Boolean (ZMod p))) × CSState (ZMod p) :=
  (AllocatedNum.alloc m (.ok x) >>= fun n => to_bits_le p m n) ⟨[], []⟩

/-- The strict-decomposition pipeline: allocate a Committed Number with hint `x` in an
empty constraint system and run `to_bits_le_strict` on it. -/
def strictPipeline (p : ℕ) (m : Mode) (x : ZMod p) :
    Except SynthesisError (List (Boolean (ZMod p))) × CSState (ZMod p) :=
  (AllocatedNum.alloc m (.ok x) >>= fun n => to_bits_le_strict p m n) ⟨[], []⟩

/-- The conclusion of the arithmetic frame/effect claim: each operation, run on a
witness-building backend with present hints, allocates exactly one fresh variable hinted
with the corresponding field operation of the operands' hints and appends exactly one
constraint of the listed rank-1 form, leaving everything else unchanged. -/
def ArithOpsSpec [CommRing F] [Inv F] [DecidableEq F] (s : CSState F)
    (x y : AllocatedNum F) (a b : F) : Prop :=
  (AllocatedNum.add Mode.witness x y s =
    (.ok ⟨some (a + b), Var.aux s.hints.length⟩,
      ⟨s.hints ++ [some (a + b)],
       s.constraints ++
         [⟨[(x.var, 1), (y.var, 1)], [(Var.one, 1)], [(Var.aux s.hints.length, 1)]⟩]⟩)) ∧
  (AllocatedNum.sub Mode.witness x y s =
    (.ok ⟨some (a - b), Var.aux s.hints.length⟩,
      ⟨s.hints ++ [some (a - b)],
       s.constraints ++
         [⟨[(x.var, 1), (y.var, -1)], [(Var.one, 1)], [(Var.aux s.hints.length, 1)]⟩]⟩)) ∧
  (AllocatedNum.neg Mode.witness x s =
    (.ok ⟨some (-a), Var.aux s.hints.length⟩,
      ⟨s.hints ++ [some (-a)],
       s.constraints ++ [⟨[], [], [(x.var, 1), (Var.aux s.hints.length, 1)]⟩]⟩)) ∧
  (AllocatedNum.mul Mode.witness x y s =
    (.ok ⟨some (a * b), Var.aux s.hints.length⟩,
      ⟨s.hints ++ [some (a * b)],
       s.constraints ++
         [⟨[(x.var, 1)], [(y.var, 1)], [(Var.aux s.hints.length, 1)]⟩]⟩)) ∧
  (AllocatedNum.div Mode.witness x y s =
    (.ok ⟨some (a * b⁻¹), Var.aux s.hints.length⟩,
      ⟨s.hints ++ [some (a * b⁻¹)],
       s.constraints ++
         [⟨[(Var.aux s.hints.length, 1)], [(y.var, 1)], [(x.var, 1)]⟩]⟩)) ∧
  (AllocatedNum.square Mode.witness x s =
    (.ok ⟨some (a * a), Var.aux s.hints.length⟩,
      ⟨s.hints ++ [some (a * a)],
       s.constraints ++
         [⟨[(x.var, 1)], [(x.var, 1)], [(Var.aux s.hints.length, 1)]⟩]⟩)) ∧
  ¬AllocatedNum.divAssertTriggered Mode.witness x y

/-- The conclusion of the `assert_nonzero` claim: with a present hint the call fails with
`DivisionByZero` exactly on the zero hint; on a nonzero hint it allocates one auxiliary
variable hinted with the inverse and registers `self * inverse = 1`, a constraint no
assignment giving `self` the value 0 can satisfy. -/
def AssertNonzeroSpec [CommRing F] [Inv F] [DecidableEq F] (s : CSState F)
    (x : AllocatedNum F) (a : F) : Prop :=
  ((AllocatedNum.assert_nonzero Mode.witness x s).1 =
      .error SynthesisError.DivisionByZero ↔ a = 0) ∧
  (a = 0 → AllocatedNum.assert_nonzero Mode.witness x s =
      (.error SynthesisError.DivisionByZero, s)) ∧
  (a ≠ 0 →
    AllocatedNum.assert_nonzero Mode.witness x s =
      (.ok (), ⟨s.hints ++ [some a⁻¹],
        s.constraints ++
          [⟨[(x.var, 1)], [(Var.aux s.hints.length, 1)], [(Var.one, 1)]⟩]⟩) ∧
    ∀ σ : ℕ → F, evalVar σ x.var = 0 →
      ¬satC σ ⟨[(x.var, 1)], [(Var.aux s.hints.length, 1)], [(Var.one, 1)]⟩)

/-- The conclusion of the (amended) `is_zero` claim: with a present hint the call
allocates the output bit (with its boolean constraint, registered by the external bit
allocation) and the multiplier, hinted as claimed, and then registers exactly the two
constraints `multiplier * self = 1 - out` and `out * self = 0`; every assignment
satisfying those two constraints gives `out` the value `(self == 0)`, whatever it assigns
to the multiplier. -/
def IsZeroSpec [CommRing F] [Inv F] [DecidableEq F] (s : CSState F) (x : AllocatedNum F)
    (a : F) : Prop :=
  (AllocatedNum.is_zero Mode.witness x s =
    (.ok (Boolean.is ⟨some (decide (a = 0)), Var.aux s.hints.length⟩),
      ⟨s.hints ++ [some (boolF (decide (a = 0))), some (if a = 0 then 0 else a⁻¹)],
       s.constraints ++
         [boolConstraint (Var.aux s.hints.length),
          ⟨[(Var.aux (s.hints.length + 1), 1)], [(x.var, 1)],
            [(Var.one, 1), (Var.aux s.hints.length, -1)]⟩,
          ⟨[(Var.aux s.hints.length, 1)], [(x.var, 1)], []⟩]⟩)) ∧
  (∀ σ : ℕ → F,
    satC σ ⟨[(Var.aux (s.hints.length + 1), 1)], [(x.var, 1)],
      [(Var.one, 1), (Var.aux s.hints.length, -1)]⟩ →
    satC σ ⟨[(Var.aux s.hints.length, 1)], [(x.var, 1)], []⟩ →
    evalVar σ (Var.aux s.hints.length) = if evalVar σ x.var = 0 then 1 else 0)

/-- The conclusion of the `div` safety claim: under the nonzero-divisor precondition the
internal assertion cannot trigger, the computed hint `a * b⁻¹` really is the quotient
(multiplying back by `b` recovers `a`), the call succeeds registering `result * b = a`,
and no `div` call on any input ever returns a `DivisionByZero` error (the precondition is
not a checked error path). -/
def DivSpec [CommRing F] [Inv F] [DecidableEq F] (s : CSState F) (x y : AllocatedNum F)
    (a b : F) : Prop :=
  ¬AllocatedNum.divAssertTriggered Mode.witness x y ∧
  (a * b⁻¹) * b = a ∧
  (AllocatedNum.div Mode.witness x y s =
    (.ok ⟨some (a * b⁻¹), Var.aux s.hints.length⟩,
      ⟨s.hints ++ [some (a * b⁻¹)],
       s.constraints ++
         [⟨[(Var.aux s.hints.length, 1)], [(y.var, 1)], [(x.var, 1)]⟩]⟩)) ∧
  ∀ (m : Mode) (s' : CSState F) (x' y' : AllocatedNum F),
    (AllocatedNum.div m x' y' s').1 ≠ Except.error SynthesisError.DivisionByZero

/-! ## Infrastructure lemmas -/

theorem CSM.bind_def (x : CSM F α) (f : α → CSM F β) (s : CSState F) :
    (x >>= f) s =
      match x s with
      | (.ok a, s₁) => f a s₁
      | (.error e, s₁) => (.error e, s₁) := rfl

theorem CSM.pure_def (a : α) (s : CSState F) : (pure a : CSM F α) s = (.ok a, s) := rfl

theorem CSM.bind_of_ok {x : CSM F α} {f : α → CSM F β} {s s₁ : CSState F} {a : α}
    (h : x s = (.ok a, s₁)) : (x >>= f) s = f a s₁ := by
  rw [CSM.bind_def, h]

theorem CSM.bind_of_error {x : CSM F α} {f : α → CSM F β} {s s₁ : CSState F}
    {e : SynthesisError} (h : x s = (.error e, s₁)) : (x >>= f) s = (.error e, s₁) := by
  rw [CSM.bind_def, h]

section Eval

variable {F : Type} [CommRing F]

@[simp]
theorem evalLC_nil (σ : ℕ → F) : evalLC σ ([] : LC F) = 0 := rfl

@[simp]
theorem evalLC_cons (σ : ℕ → F) (v : Var) (cf : F) (l : LC F) :
    evalLC σ ((v, cf) :: l) = cf * evalVar σ v + evalLC σ l := rfl

@[simp]
theorem evalLC_append (σ : ℕ → F) (l l' : LC F) :
    evalLC σ (l ++ l') = evalLC σ l + evalLC σ l' := by
  simp [evalLC]

@[simp]
theorem evalVar_one (σ : ℕ → F) : evalVar σ Var.one = 1 := rfl

@[simp]
theorem evalVar_aux (σ : ℕ → F) (i : ℕ) : evalVar σ (Var.aux i) = σ i := rfl

theorem SatAll_append {σ : ℕ → F} {L L' : List (Constraint F)} :
    SatAll σ (L ++ L') ↔ SatAll σ L ∧ SatAll σ L' := by
  constructor
  · intro h
    exact ⟨fun c hc => h c (List.mem_append_left _ hc),
           fun c hc => h c (List.mem_append_right _ hc)⟩
  · rintro ⟨h₁, h₂⟩ c hc
    rcases List.mem_append.mp hc with h | h
    · exact h₁ c h
    · exact h₂ c h

theorem SatAll_sublist {σ : ℕ → F} {L L' : List (Constraint F)} (hs : List.Sublist L L')
    (h : SatAll σ L') : SatAll σ L := fun c hc => h c (hs.mem hc)

theorem hintAsg_extend {cs cs' : CSState F} (hE : Extends cs cs') {i : ℕ}
    (h : i < cs.hints.length) : hintAsg cs' i = hintAsg cs i := by
  obtain ⟨t, ht⟩ := hE
  simp only [hintAsg, ht, List.getD_eq_getElem?_getD, List.getElem?_append_left h]

theorem evalVar_extend {cs cs' : CSState F} (hE : Extends cs cs') {v : Var}
    (hv : VarBound cs.hints.length v) :
    evalVar (hintAsg cs') v = evalVar (hintAsg cs) v := by
  cases v with
  | one => rfl
  | aux i => exact hintAsg_extend hE hv

theorem evalLC_extend' {cs cs' : CSState F} (hE : Extends cs cs') {l : LC F}
    (hl : LCBound cs.hints.length l) :
    evalLC (hintAsg cs') l = evalLC (hintAsg cs) l := by
  induction l with
  | nil => rfl
  | cons t rest ih =>
    obtain ⟨v, cf⟩ := t
    have hv : VarBound cs.hints.length v := hl _ (List.mem_cons_self _ _)
    have hrest : LCBound cs.hints.length rest := fun u hu => hl u (List.mem_cons_of_mem _ hu)
    simp [evalVar_extend hE hv, ih hrest]

theorem satC_extend {cs cs' : CSState F} (hE : Extends cs cs') {c : Constraint F}
    (hc : CBound cs.hints.length c) :
    satC (hintAsg cs') c ↔ satC (hintAsg cs) c := by
  obtain ⟨ha, hb, hcc⟩ := hc
  unfold satC
  rw [evalLC_extend' hE ha, evalLC_extend' hE hb, evalLC_extend' hE hcc]

theorem Extends.refl (cs : CSState F) : Extends cs cs := ⟨[], by simp⟩

theorem Extends.trans {cs₁ cs₂ cs₃ : CSState F} (h₁ : Extends cs₁ cs₂)
    (h₂ : Extends cs₂ cs₃) : Extends cs₁ cs₃ := by
  obtain ⟨t₁, ht₁⟩ := h₁
  obtain ⟨t₂, ht₂⟩ := h₂
  exact ⟨t₁ ++ t₂, by simp [ht₂, ht₁]⟩

theorem Extends.length_le {cs cs' : CSState F} (h : Extends cs cs') :
    cs.hints.length ≤ cs'.hints.length := by
  obtain ⟨t, ht⟩ := h
  simp [ht]

theorem varBound_mono {n n' : ℕ} (h : n ≤ n') {v : Var} (hv : VarBound n v) :
    VarBound n' v := by
  cases v with
  | one => trivial
  | aux i => exact lt_of_lt_of_le hv h

theorem lcBound_mono {n n' : ℕ} (h : n ≤ n') {l : LC F} (hl : LCBound n l) :
    LCBound n' l := fun t ht => varBound_mono h (hl t ht)

theorem cBound_mono {n n' : ℕ} (h : n ≤ n') {c : Constraint F} (hc : CBound n c) :
    CBound n' c := ⟨lcBound_mono h hc.1, lcBound_mono h hc.2.1, lcBound_mono h hc.2.2⟩

theorem hintAsg_new (cs : CSState F) (v : F) (C : List (Constraint F)) :
    hintAsg (⟨cs.hints ++ [some v], C⟩ : CSState F) cs.hints.length = v := by
  simp [hintAsg, List.getD_append_right _ _ _ _ (le_refl _)]

theorem bitReal_extend {cs cs' : CSState F} (hE : Extends cs cs') {b : AllocatedBit F}
    (h : BitReal cs b) : BitReal cs' b := by
  obtain ⟨i, bv, hv, hval, hget⟩ := h
  obtain ⟨t, ht⟩ := hE
  have hi : i < cs.hints.length := by
    by_contra hlt
    rw [List.getElem?_eq_none (by omega)] at hget
    exact Option.noConfusion hget
  refine ⟨i, bv, hv, hval, ?_⟩
  rw [ht, List.getElem?_append_left hi]
  exact hget

theorem BitReal.varBound {cs : CSState F} {b : AllocatedBit F} (h : BitReal cs b) :
    VarBound cs.hints.length b.var := by
  obtain ⟨i, bv, hv, _, hget⟩ := h
  rw [hv]
  show i < cs.hints.length
  by_contra hlt
  rw [List.getElem?_eq_none (by omega)] at hget
  exact Option.noConfusion hget

theorem BitReal.evalVar {cs : CSState F} {b : AllocatedBit F} (h : BitReal cs b) :
    ∃ bv, b.value = some bv ∧ evalVar (hintAsg cs) b.var = boolF bv := by
  obtain ⟨i, bv, hv, hval, hget⟩ := h
  refine ⟨bv, hval, ?_⟩
  rw [hv]
  simp only [evalVar_aux, hintAsg, List.getD_eq_getElem?_getD, hget, Option.getD_some]

theorem numReal_extend {cs cs' : CSState F} (hE : Extends cs cs') {x : AllocatedNum F}
    (h : NumReal cs x) : NumReal cs' x := by
  obtain ⟨v, hval, hb, he⟩ := h
  exact ⟨v, hval, varBound_mono hE.length_le hb, by rw [evalVar_extend hE hb]; exact he⟩

theorem boolReal_extend {cs cs' : CSState F} (hE : Extends cs cs') {β : Boolean F}
    (h : BoolReal cs β) : BoolReal cs' β := by
  obtain ⟨bv, hval, hb, he⟩ := h
  exact ⟨bv, hval, lcBound_mono hE.length_le hb, by rw [evalLC_extend' hE hb]; exact he⟩

end Eval

/-! ## Per-operation run lemmas -/

section RunLemmas

variable {F : Type} [CommRing F] [Inv F] [DecidableEq F]

theorem alloc_run (v : F) (s : CSState F) :
    AllocatedNum.alloc Mode.witness (.ok v) s =
      (.ok ⟨some v, Var.aux s.hints.length⟩,
        ⟨s.hints ++ [some v], s.constraints⟩) := by
  simp [AllocatedNum.alloc, allocM, CSM.bind_def, CSM.pure_def]

theorem add_run {x y : AllocatedNum F} {a b : F} (hx : x.value = some a)
    (hy : y.value = some b) (s : CSState F) :
    AllocatedNum.add Mode.witness x y s =
      (.ok ⟨some (a + b), Var.aux s.hints.length⟩,
        ⟨s.hints ++ [some (a + b)],
         s.constraints ++
           [⟨[(x.var, 1), (y.var, 1)], [(Var.one, 1)], [(Var.aux s.hints.length, 1)]⟩]⟩) := by
  simp [AllocatedNum.add, hx, hy, allocM, enforceM, CSM.bind_def, CSM.pure_def]

theorem sub_run {x y : AllocatedNum F} {a b : F} (hx : x.value = some a)
    (hy : y.value = some b) (s : CSState F) :
    AllocatedNum.sub Mode.witness x y s =
      (.ok ⟨some (a - b), Var.aux s.hints.length⟩,
        ⟨s.hints ++ [some (a - b)],
         s.constraints ++
           [⟨[(x.var, 1), (y.var, -1)], [(Var.one, 1)], [(Var.aux s.hints.length, 1)]⟩]⟩) := by
  simp [AllocatedNum.sub, hx, hy, allocM, enforceM, CSM.bind_def, CSM.pure_def]

theorem neg_run {x : AllocatedNum F} {a : F} (hx : x.value = some a) (s : CSState F) :
    AllocatedNum.neg Mode.witness x s =
      (.ok ⟨some (-a), Var.aux s.hints.length⟩,
        ⟨s.hints ++ [some (-a)],
         s.constraints ++ [⟨[], [], [(x.var, 1), (Var.aux s.hints.length, 1)]⟩]⟩) := by
  simp [AllocatedNum.neg, hx, allocM, enforceM, CSM.bind_def, CSM.pure_def]

theorem mul_run {x y : AllocatedNum F} {a b : F} (hx : x.value = some a)
    (hy : y.value = some b) (s : CSState F) :
    AllocatedNum.mul Mode.witness x y s =
      (.ok ⟨some (a * b), Var.aux s.hints.length⟩,
        ⟨s.hints ++ [some (a * b)],
         s.constraints ++
           [⟨[(x.var, 1)], [(y.var, 1)], [(Var.aux s.hints.length, 1)]⟩]⟩) := by
  simp [AllocatedNum.mul, hx, hy, allocM, enforceM, CSM.bind_def, CSM.pure_def]

theorem div_run {x y : AllocatedNum F} {a b : F} (hx : x.value = some a)
    (hy : y.value = some b) (s : CSState F) :
    AllocatedNum.div Mode.witness x y s =
      (.ok ⟨some (a * b⁻¹), Var.aux s.hints.length⟩,
        ⟨s.hints ++ [some (a * b⁻¹)],
         s.constraints ++
           [⟨[(Var.aux s.hints.length, 1)], [(y.var, 1)], [(x.var, 1)]⟩]⟩) := by
  simp [AllocatedNum.div, hx, hy, allocM, enforceM, CSM.bind_def, CSM.pure_def]

theorem square_run {x : AllocatedNum F} {a : F} (hx : x.value = some a) (s : CSState F) :
    AllocatedNum.square Mode.witness x s =
      (.ok ⟨some (a * a), Var.aux s.hints.length⟩,
        ⟨s.hints ++ [some (a * a)],
         s.constraints ++
           [⟨[(x.var, 1)], [(x.var, 1)], [(Var.aux s.hints.length, 1)]⟩]⟩) := by
  simp [AllocatedNum.square, hx, allocM, enforceM, CSM.bind_def, CSM.pure_def]

theorem assert_nonzero_run {x : AllocatedNum F} {a : F} (hx : x.value = some a)
    (ha : a ≠ 0) (s : CSState F) :
    AllocatedNum.assert_nonzero Mode.witness x s =
      (.ok (), ⟨s.hints ++ [some a⁻¹],
        s.constraints ++
          [⟨[(x.var, 1)], [(Var.aux s.hints.length, 1)], [(Var.one, 1)]⟩]⟩) := by
  simp [AllocatedNum.assert_nonzero, hx, ha, allocM, enforceM, CSM.bind_def, CSM.pure_def]

theorem assert_nonzero_zero {x : AllocatedNum F} (hx : x.value = some 0) (s : CSState F) :
    AllocatedNum.assert_nonzero Mode.witness x s = (.error .DivisionByZero, s) := by
  simp [AllocatedNum.assert_nonzero, hx, allocM, enforceM, CSM.bind_def, CSM.pure_def]

theorem bitAlloc_run (bv : Bool) (s : CSState F) :
    AllocatedBit.alloc Mode.witness (some bv) s =
      (.ok ⟨some bv, Var.aux s.hints.length⟩,
        ⟨s.hints ++ [some (boolF bv)],
         s.constraints ++ [boolConstraint (Var.aux s.hints.length)]⟩) := by
  simp [AllocatedBit.alloc, allocM, enforceM, ofOption, Except.map, boolConstraint,
    CSM.bind_def, CSM.pure_def]

theorem bitAnd_run {x y : AllocatedBit F} {xv yv : Bool} (hx : x.value = some xv)
    (hy : y.value = some yv) (s : CSState F) :
    AllocatedBit.and Mode.witness x y s =
      (.ok ⟨some (xv && yv), Var.aux s.hints.length⟩,
        ⟨s.hints ++ [some (boolF (xv && yv))],
         s.constraints ++
           [⟨[(x.var, 1)], [(y.var, 1)], [(Var.aux s.hints.length, 1)]⟩]⟩) := by
  simp [AllocatedBit.and, hx, hy, allocM, enforceM, Except.map, Except.toOption,
    CSM.bind_def, CSM.pure_def]

theorem bitAllocCond_run (bv : Bool) (mbf : AllocatedBit F) (s : CSState F) :
    AllocatedBit.alloc_conditionally Mode.witness (some bv) mbf s =
      (.ok ⟨some bv, Var.aux s.hints.length⟩,
        ⟨s.hints ++ [some (boolF bv)],
         s.constraints ++
           [⟨[(Var.one, 1), (mbf.var, -1), (Var.aux s.hints.length, -1)],
             [(Var.aux s.hints.length, 1)], []⟩]⟩) := by
  simp [AllocatedBit.alloc_conditionally, allocM, enforceM, ofOption, Except.map,
    CSM.bind_def, CSM.pure_def]

theorem select_run {x y : AllocatedNum F} {β : Boolean F} {cv : Bool} {a b : F}
    (hc : β.get_value = some cv) (hx : x.value = some a) (hy : y.value = some b)
    (s : CSState F) :
    AllocatedNum.conditionally_select Mode.witness x y β s =
      (.ok ⟨some (if cv then b else a), Var.aux s.hints.length⟩,
        ⟨s.hints ++ [some (if cv then b else a)],
         s.constraints ++
           [⟨β.lc Var.one 1, [(x.var, 1), (y.var, -1)],
             [(x.var, 1), (Var.aux s.hints.length, -1)]⟩]⟩) := by
  cases cv with
  | true =>
    simp [AllocatedNum.conditionally_select, hc, hx, hy, ofOption, allocM, enforceM,
      CSM.bind_def, CSM.pure_def]
  | false =>
    simp [AllocatedNum.conditionally_select, hc, hx, hy, ofOption, allocM, enforceM,
      CSM.bind_def, CSM.pure_def]

theorem is_zero_run {x : AllocatedNum F} {a : F} (hx : x.value = some a) (s : CSState F) :
    AllocatedNum.is_zero Mode.witness x s =
      (.ok (Boolean.is ⟨some (decide (a = 0)), Var.aux s.hints.length⟩),
        ⟨s.hints ++ [some (boolF (decide (a = 0))), some (if a = 0 then 0 else a⁻¹)],
         s.constraints ++
           [boolConstraint (Var.aux s.hints.length),
            ⟨[(Var.aux (s.hints.length + 1), 1)], [(x.var, 1)],
              [(Var.one, 1), (Var.aux s.hints.length, -1)]⟩,
            ⟨[(Var.aux s.hints.length, 1)], [(x.var, 1)], []⟩]⟩) := by
  simp [AllocatedNum.is_zero, hx, liftE, ofOption, AllocatedBit.alloc, AllocatedNum.alloc,
    allocM, enforceM, Except.map, boolConstraint, CSM.bind_def, CSM.pure_def,
    List.append_assoc]

theorem is_zero_none {x : AllocatedNum F} (hx : x.value = none) (m : Mode)
    (s : CSState F) :
    AllocatedNum.is_zero m x s = (.error .AssignmentMissing, s) := by
  simp [AllocatedNum.is_zero, hx, liftE, ofOption, CSM.bind_def]

theorem add_setup (x y : AllocatedNum F) (s : CSState F) :
    AllocatedNum.add Mode.setup x y s =
      (.ok ⟨none, Var.aux s.hints.length⟩,
        ⟨s.hints ++ [none],
         s.constraints ++
           [⟨[(x.var, 1), (y.var, 1)], [(Var.one, 1)], [(Var.aux s.hints.length, 1)]⟩]⟩) := by
  simp [AllocatedNum.add, allocM, enforceM, CSM.bind_def, CSM.pure_def]

theorem sub_setup (x y : AllocatedNum F) (s : CSState F) :
    AllocatedNum.sub Mode.setup x y s =
      (.ok ⟨none, Var.aux s.hints.length⟩,
        ⟨s.hints ++ [none],
         s.constraints ++
           [⟨[(x.var, 1), (y.var, -1)], [(Var.one, 1)], [(Var.aux s.hints.length, 1)]⟩]⟩) := by
  simp [AllocatedNum.sub, allocM, enforceM, CSM.bind_def, CSM.pure_def]

theorem neg_setup (x : AllocatedNum F) (s : CSState F) :
    AllocatedNum.neg Mode.setup x s =
      (.ok ⟨none, Var.aux s.hints.length⟩,
        ⟨s.hints ++ [none],
         s.constraints ++ [⟨[], [], [(x.var, 1), (Var.aux s.hints.length, 1)]⟩]⟩) := by
  simp [AllocatedNum.neg, allocM, enforceM, CSM.bind_def, CSM.pure_def]

theorem mul_setup (x y : AllocatedNum F) (s : CSState F) :
    AllocatedNum.mul Mode.setup x y s =
      (.ok ⟨none, Var.aux s.hints.length⟩,
        ⟨s.hints ++ [none],
         s.constraints ++
           [⟨[(x.var, 1)], [(y.var, 1)], [(Var.aux s.hints.length, 1)]⟩]⟩) := by
  simp [AllocatedNum.mul, allocM, enforceM, CSM.bind_def, CSM.pure_def]

theorem div_setup (x y : AllocatedNum F) (s : CSState F) :
    AllocatedNum.div Mode.setup x y s =
      (.ok ⟨none, Var.aux s.hints.length⟩,
        ⟨s.hints ++ [none],
         s.constraints ++
           [⟨[(Var.aux s.hints.length, 1)], [(y.var, 1)], [(x.var, 1)]⟩]⟩) := by
  simp [AllocatedNum.div, allocM, enforceM, CSM.bind_def, CSM.pure_def]

theorem square_setup (x : AllocatedNum F) (s : CSState F) :
    AllocatedNum.square Mode.setup x s =
      (.ok ⟨none, Var.aux s.hints.length⟩,
        ⟨s.hints ++ [none],
         s.constraints ++
           [⟨[(x.var, 1)], [(x.var, 1)], [(Var.aux s.hints.length, 1)]⟩]⟩) := by
  simp [AllocatedNum.square, allocM, enforceM, CSM.bind_def, CSM.pure_def]

end RunLemmas

/-! ## Claim C5: arithmetic frame/effect -/

/-- C5: each of add, sub, neg, mul, div and square, when it succeeds, allocates exactly
one new constraint-system variable hinted with the corresponding field operation of the
operands' hints and registers exactly one constraint of exactly the listed rank-1 form,
leaving the rest of the constraint system unchanged (for `div`, under the nonzero-divisor
precondition, whose internal assertion then cannot trigger). -/
theorem claim5 {F : Type} [CommRing F] [Inv F] [DecidableEq F] (s : CSState F)
    (x y : AllocatedNum F) (a b : F) (hx : x.value = some a) (hy : y.value = some b)
    (hb : b ≠ 0) : ArithOpsSpec s x y a b := by
  refine ⟨add_run hx hy s, sub_run hx hy s, neg_run hx s, mul_run hx hy s,
    div_run hx hy s, square_run hx s, ?_⟩
  simp [AllocatedNum.divAssertTriggered, hy, hb]

/-- Witness for C5 at `F = ZMod 13`, hints 3 and 4. -/
theorem claim5_witness :
    ArithOpsSpec (⟨[some 3, some 4], []⟩ : CSState (ZMod 13))
      ⟨some 3, Var.aux 0⟩ ⟨some 4, Var.aux 1⟩ 3 4 := by
  refine claim5 ⟨[some 3, some 4], []⟩ ⟨some 3, Var.aux 0⟩ ⟨some 4, Var.aux 1⟩ 3 4 rfl rfl ?_
  decide

/-! ## Claim C6: assert_nonzero -/

/-- C6: for a Committed Number with a present hint, `assert_nonzero` fails with
`DivisionByZero` iff the hint is zero; on a nonzero hint it succeeds, allocates one
auxiliary variable hinted with the inverse, and registers `self * inverse = 1`, which no
assignment with `self = 0` can satisfy. -/
theorem claim6 {F : Type} [Field F] [DecidableEq F] (s : CSState F)
    (x : AllocatedNum F) {a : F} (hx : x.value = some a) : AssertNonzeroSpec s x a := by
  refine ⟨?_, ?_, ?_⟩
  · constructor
    · intro h
      by_contra ha
      rw [assert_nonzero_run hx ha s] at h
      exact Except.noConfusion h
    · intro h
      rw [h] at hx
      rw [assert_nonzero_zero hx s]
  · intro h
    rw [h] at hx
    exact assert_nonzero_zero hx s
  · intro ha
    refine ⟨assert_nonzero_run hx ha s, ?_⟩
    intro σ h0 hsat
    simp [satC, h0] at hsat

/-- Witness for C6 at `F = ZMod 13`, hint 5. -/
theorem claim6_witness :
    AssertNonzeroSpec (⟨[some 5], []⟩ : CSState (ZMod 13)) ⟨some 5, Var.aux 0⟩ 5 := by
  haveI : Fact (Nat.Prime 13) := ⟨by norm_num⟩
  exact claim6 ⟨[some 5], []⟩ ⟨some 5, Var.aux 0⟩ rfl

/-! ## Claim C3: is_zero (corrected) -/

/-- Counterexample to C3 as stated: `is_zero` does not register exactly the two listed
constraints — allocating the output bit also registers its boolean constraint, so three
constraints are appended (here at `F = ZMod 13`, hint 0, starting from one allocated
variable and no constraints). -/
theorem claim3_cex :
    ((AllocatedNum.is_zero Mode.witness (⟨some 0, Var.aux 0⟩ : AllocatedNum (ZMod 13))
        ⟨[some 0], []⟩).2.constraints.length = 3) ∧ (3 : ℕ) ≠ 2 := by
  constructor
  · rw [is_zero_run rfl]
    rfl
  · decide

/-- C3 (amended): `is_zero` with a present hint registers the output bit's boolean
constraint followed by exactly the two constraints `multiplier * self = 1 - out` and
`out * self = 0`; in every assignment satisfying those two constraints the output bit
equals 1 if self's assigned value is zero and 0 otherwise, regardless of the multiplier's
value; the hints produced are `out = (self == 0)` and `multiplier = self⁻¹` if self is
nonzero, else 0. -/
theorem claim3 {F : Type} [Field F] [DecidableEq F] (s : CSState F)
    (x : AllocatedNum F) {a : F} (hx : x.value = some a) : IsZeroSpec s x a := by
  refine ⟨is_zero_run hx s, ?_⟩
  intro σ h1 h2
  unfold satC at h1 h2
  simp only [evalLC_cons, evalLC_nil, evalVar_aux, evalVar_one, add_zero, one_mul,
    mul_one, neg_mul] at h1 h2
  by_cases hz : evalVar σ x.var = 0
  · rw [if_pos hz]
    rw [hz, mul_zero] at h1
    have h1' : 1 - σ s.hints.length = 0 := by
      rw [sub_eq_add_neg]
      exact h1.symm
    exact (sub_eq_zero.mp h1').symm
  · rw [if_neg hz]
    rcases mul_eq_zero.mp h2 with h | h
    · exact h
    · exact absurd h hz

/-- Witness for C3 (amended) at `F = ZMod 13`, hint 5. -/
theorem claim3_witness :
    IsZeroSpec (⟨[some 5], []⟩ : CSState (ZMod 13)) ⟨some 5, Var.aux 0⟩ 5 := by
  haveI : Fact (Nat.Prime 13) := ⟨by norm_num⟩
  exact claim3 ⟨[some 5], []⟩ ⟨some 5, Var.aux 0⟩ rfl

/-! ## Claim C7: mux_tree structural failure -/

/-- C7: whenever the input count does not match the selector-bit count, `mux_tree`
returns an `Unsatisfiable` error and the constraint system is returned exactly as it was
before the call — no constraint registered and no variable allocated, including by
recursive sub-calls. -/
theorem claim7 {F : Type} [CommRing F] [Inv F] [DecidableEq F] (m : Mode) (bits : List (Boolean F))
    (inputs : List (AllocatedNum F)) (s : CSState F)
    (h : muxShapeOk bits.length inputs.length = false) :
    AllocatedNum.mux_tree m bits inputs s = (.error SynthesisError.Unsatisfiable, s) := by
  induction bits generalizing inputs s with
  | nil =>
    have h1 : inputs.length ≠ 1 := by simpa [muxShapeOk] using h
    simp [AllocatedNum.mux_tree, h1, throwE]
  | cons bit rest ih =>
    rw [AllocatedNum.mux_tree]
    by_cases hpar : inputs.length % 2 = 0
    · have hsh : muxShapeOk rest.length (inputs.length / 2) = false := by
        simpa [muxShapeOk, hpar] using h
      have hlen : (inputs.take (inputs.length / 2)).length = inputs.length / 2 := by
        simp [List.length_take]
        omega
      have hleft := ih (inputs.take (inputs.length / 2)) s (by rw [hlen]; exact hsh)
      rw [if_neg (by simp [hpar])]
      exact CSM.bind_of_error hleft
    · rw [if_pos (by simpa using hpar)]
      rfl

/-- Witness for C7 at `F = ZMod 13`: one selector bit with three inputs. -/
theorem claim7_witness :
    AllocatedNum.mux_tree Mode.witness [Boolean.const true]
      ([⟨some 1, Var.aux 0⟩, ⟨some 2, Var.aux 1⟩, ⟨some 3, Var.aux 2⟩] :
        List (AllocatedNum (ZMod 13)))
      ⟨[some 1, some 2, some 3], []⟩ =
      (.error SynthesisError.Unsatisfiable, ⟨[some 1, some 2, some 3], []⟩) := by
  exact claim7 Mode.witness [Boolean.const true] _ _ (by decide)

/-! ## Helper lemmas for the mux tree -/

theorem beNat_foldl (bs : List Bool) (acc : ℕ) :
    bs.foldl (fun a b => 2 * a + cond b 1 0) acc = acc * 2 ^ bs.length + beNat bs := by
  induction bs generalizing acc with
  | nil => simp [beNat]
  | cons b bs ih =>
    show bs.foldl _ (2 * acc + cond b 1 0) = _
    rw [ih]
    have hb : beNat (b :: bs) = (cond b 1 0) * 2 ^ bs.length + beNat bs := by
      show bs.foldl _ (2 * 0 + cond b 1 0) = _
      rw [ih]
      ring_nf
    rw [hb]
    simp [List.length_cons, pow_succ]
    ring

theorem beNat_cons (b : Bool) (bs : List Bool) :
    beNat (b :: bs) = (cond b 1 0) * 2 ^ bs.length + beNat bs := by
  show bs.foldl _ (2 * 0 + cond b 1 0) = _
  rw [beNat_foldl]
  ring_nf

theorem beNat_lt (bs : List Bool) : beNat bs < 2 ^ bs.length := by
  induction bs with
  | nil => simp [beNat]
  | cons b bs ih =>
    rw [beNat_cons]
    have h2 : (2 : ℕ) ^ (b :: bs).length = 2 * 2 ^ bs.length := by
      simp [List.length_cons, pow_succ]
      ring
    rw [h2]
    cases b <;> simp <;> omega

theorem getD_take (l : List α) (n i : ℕ) (d : α) (h : i < n) :
    (l.take n).getD i d = l.getD i d := by
  rw [List.getD_eq_getElem?_getD, List.getD_eq_getElem?_getD, List.getElem?_take]
  simp [h]

theorem getD_drop (l : List α) (n i : ℕ) (d : α) :
    (l.drop n).getD i d = l.getD (n + i) d := by
  rw [List.getD_eq_getElem?_getD, List.getD_eq_getElem?_getD, List.getElem?_drop]

/-! ## GoodCS preservation lemmas -/

theorem good_alloc {F : Type} [CommRing F] {cs : CSState F} (hg : GoodCS cs)
    (h : Option F) : GoodCS (⟨cs.hints ++ [h], cs.constraints⟩ : CSState F) := by
  have hE : Extends cs (⟨cs.hints ++ [h], cs.constraints⟩ : CSState F) := ⟨[h], rfl⟩
  constructor
  · intro c hc
    exact cBound_mono (by simp) (hg.1 c hc)
  · intro c hc
    rw [satC_extend hE (hg.1 c hc)]
    exact hg.2 c hc

theorem good_step {F : Type} [CommRing F] {cs : CSState F} (hg : GoodCS cs)
    (h : Option F) (c : Constraint F)
    (hb : CBound (cs.hints.length + 1) c)
    (hs : satC (hintAsg (⟨cs.hints ++ [h], cs.constraints ++ [c]⟩ : CSState F)) c) :
    GoodCS (⟨cs.hints ++ [h], cs.constraints ++ [c]⟩ : CSState F) := by
  have hE : Extends cs (⟨cs.hints ++ [h], cs.constraints ++ [c]⟩ : CSState F) := ⟨[h], rfl⟩
  constructor
  · intro c' hc'
    rcases List.mem_append.mp hc' with hold | hnew
    · exact cBound_mono (by simp) (hg.1 c' hold)
    · rw [List.mem_singleton.mp hnew]
      simpa using hb
  · intro c' hc'
    rcases List.mem_append.mp hc' with hold | hnew
    · rw [satC_extend hE (hg.1 c' hold)]
      exact hg.2 c' hold
    · rw [List.mem_singleton.mp hnew]
      exact hs

/-! ## Completeness of conditionally_select -/

theorem select_good {F : Type} [CommRing F] [Inv F] [DecidableEq F] {cs : CSState F}
    {x y : AllocatedNum F} {β : Boolean F} {av bv : F} {cv : Bool}
    (hg : GoodCS cs) (hx : NumReal cs x) (hy : NumReal cs y) (hβ : BoolReal cs β)
    (hxv : x.value = some av) (hyv : y.value = some bv) (hcv : β.get_value = some cv) :
    ∃ cs' : CSState F,
      AllocatedNum.conditionally_select Mode.witness x y β cs =
        (.ok ⟨some (if cv then bv else av), Var.aux cs.hints.length⟩, cs') ∧
      Extends cs cs' ∧ GoodCS cs' ∧
      NumReal cs' ⟨some (if cv then bv else av), Var.aux cs.hints.length⟩ := by
  obtain ⟨av', hxv', hxb, hxe⟩ := hx
  obtain ⟨bv', hyv', hyb, hye⟩ := hy
  obtain ⟨cv', hcv', hcb, hce⟩ := hβ
  rw [hxv] at hxv'
  rw [hyv] at hyv'
  rw [hcv] at hcv'
  obtain rfl : av = av' := Option.some_injective _ hxv'
  obtain rfl : bv = bv' := Option.some_injective _ hyv'
  obtain rfl : cv = cv' := Option.some_injective _ hcv'
  set w : F := if cv then bv else av with hw
  set cs' : CSState F :=
    ⟨cs.hints ++ [some w],
     cs.constraints ++
       [⟨β.lc Var.one 1, [(x.var, 1), (y.var, -1)],
         [(x.var, 1), (Var.aux cs.hints.length, -1)]⟩]⟩ with hcs'
  have hE : Extends cs cs' := ⟨[some w], rfl⟩
  have hnew : hintAsg cs' cs.hints.length = w := hintAsg_new cs (w) _
  have hxe' : evalVar (hintAsg cs') x.var = av := by
    rw [evalVar_extend hE hxb]
    exact hxe
  have hye' : evalVar (hintAsg cs') y.var = bv := by
    rw [evalVar_extend hE hyb]
    exact hye
  have hce' : evalLC (hintAsg cs') (β.lc Var.one 1) = boolF cv := by
    rw [evalLC_extend' hE hcb]
    exact hce
  refine ⟨cs', select_run hcv hxv hyv cs, hE, ?_, ?_⟩
  · refine good_step hg (some w) _ ⟨?_, ?_, ?_⟩ ?_
    · exact lcBound_mono (by omega) hcb
    · intro t ht
      rcases List.mem_cons.mp ht with h | h
      · rw [h]
        exact varBound_mono (by omega) hxb
      · rw [List.mem_singleton.mp h]
        exact varBound_mono (by omega) hyb
    · intro t ht
      rcases List.mem_cons.mp ht with h | h
      · rw [h]
        exact varBound_mono (by omega) hxb
      · rw [List.mem_singleton.mp h]
        simp [VarBound]
    · show satC (hintAsg cs') _
      unfold satC
      simp only [evalLC_cons, evalLC_nil, evalVar_aux, hce', hxe', hye', hnew]
      cases cv <;> simp [boolF, hw]
  · refine ⟨w, rfl, ?_, ?_⟩
    · show cs.hints.length < cs'.hints.length
      simp [hcs']
    · exact hnew

/-! ## Claim C2: mux_tree selects inputs[index] -/

/-- C2: for every `k ≥ 0`, every list of exactly `2^k` Committed Numbers realized in the
constraint system, and every sequence of `k` selector Booleans with concrete hints
(most-significant first) realized in the constraint system, `mux_tree` succeeds and
returns a Committed Number whose hint equals the hint of `inputs[index]`, where `index`
is the big-endian integer formed by the selector bits, and the whole resulting constraint
system (so in particular every registered constraint) is satisfied by the hinted
assignment — for every one of the `2^k` selector-bit combinations. -/
theorem claim2 {F : Type} [CommRing F] [Inv F] [DecidableEq F] (sels : List (Boolean F))
    (inputs : List (AllocatedNum F)) (cs : CSState F) (bvs : List Bool)
    (hg : GoodCS cs)
    (hin : ∀ i ∈ inputs, NumReal cs i)
    (hsel : ∀ β ∈ sels, BoolReal cs β)
    (hbv : sels.map Boolean.get_value = bvs.map some)
    (hlen : inputs.length = 2 ^ sels.length) :
    ∃ r cs', AllocatedNum.mux_tree Mode.witness sels inputs cs = (.ok r, cs') ∧
      Extends cs cs' ∧ GoodCS cs' ∧ NumReal cs' r ∧
      r.value = (inputs.getD (beNat bvs) ⟨none, Var.one⟩).value := by
  induction sels generalizing inputs cs bvs with
  | nil =>
    obtain rfl : bvs = [] := by
      cases bvs with
      | nil => rfl
      | cons c cs => simp at hbv
    have h1 : inputs.length = 1 := by simpa using hlen
    refine ⟨inputs.get ⟨0, by omega⟩, cs, ?_, Extends.refl cs, hg, ?_, ?_⟩
    · show AllocatedNum.mux_tree Mode.witness [] inputs cs = _
      rw [AllocatedNum.mux_tree]
      rw [dif_pos h1]
      rfl
    · refine hin _ ?_
      apply List.get_mem
    · show _ = (inputs.getD (beNat []) ⟨none, Var.one⟩).value
      have : beNat ([] : List Bool) = 0 := rfl
      rw [this, List.getD_eq_getElem?_getD, List.getElem?_eq_getElem (by omega),
        Option.getD_some, List.get_eq_getElem]
  | cons β rest ih =>
    obtain ⟨cv, cvs, rfl⟩ : ∃ cv cvs, bvs = cv :: cvs := by
      cases bvs with
      | nil => simp at hbv
      | cons c cs => exact ⟨c, cs, rfl⟩
    have hβv : β.get_value = some cv := by simpa using congrArg (fun l => l.headD none) hbv
    have hrestv : rest.map Boolean.get_value = cvs.map some := by
      simpa using congrArg List.tail hbv
    have hk : cvs.length = rest.length := by
      have := congrArg List.length hbv
      simpa using this.symm
    have hpow : inputs.length = 2 * 2 ^ rest.length := by
      rw [hlen]
      simp [List.length_cons, pow_succ]
      ring
    have hpar : inputs.length % 2 = 0 := by omega
    have hhalf : inputs.length / 2 = 2 ^ rest.length := by omega
    have hlenT : (inputs.take (inputs.length / 2)).length = 2 ^ rest.length := by
      simp [List.length_take]
      omega
    have hlenD : (inputs.drop (inputs.length / 2)).length = 2 ^ rest.length := by
      simp [List.length_drop]
      omega
    obtain ⟨l, cs₁, hL, hE₁, hg₁, hlr, hlv⟩ :=
      ih (inputs.take (inputs.length / 2)) cs cvs hg
        (fun i hi => hin i (List.take_subset _ _ hi))
        (fun b hb => hsel b (List.mem_cons_of_mem _ hb)) hrestv hlenT
    obtain ⟨rt, cs₂, hR, hE₂, hg₂, hrr, hrv⟩ :=
      ih (inputs.drop (inputs.length / 2)) cs₁ cvs hg₁
        (fun i hi => numReal_extend hE₁ (hin i (List.drop_subset _ _ hi)))
        (fun b hb => boolReal_extend hE₁ (hsel b (List.mem_cons_of_mem _ hb))) hrestv hlenD
    obtain ⟨lav, hlav, -, -⟩ := id hlr
    obtain ⟨rav, hrav, -, -⟩ := id hrr
    obtain ⟨cs₃, hS, hE₃, hg₃, hr₃⟩ :=
      select_good hg₂ (numReal_extend hE₂ hlr) hrr (boolReal_extend
        (hE₁.trans hE₂) (hsel β (List.mem_cons_self _ _))) hlav hrav hβv
    refine ⟨⟨some (if cv then rav else lav), Var.aux cs₂.hints.length⟩, cs₃, ?_,
      (hE₁.trans hE₂).trans hE₃, hg₃, hr₃, ?_⟩
    · rw [AllocatedNum.mux_tree]
      rw [if_neg (by simp [hpar])]
      rw [CSM.bind_def, hL]
      show (AllocatedNum.mux_tree Mode.witness rest _ >>= _) cs₁ = _
      rw [CSM.bind_def, hR]
      exact hS
    · rw [beNat_cons, hk]
      cases cv with
      | true =>
        simp only [cond_true, one_mul]
        have hv : rt.value = (inputs.getD (2 ^ rest.length + beNat cvs)
            ⟨none, Var.one⟩).value := by
          rw [hrv, getD_drop, hhalf]
        rw [← hv, hrav]
        simp
      | false =>
        simp only [cond_false, zero_mul, zero_add]
        have hv : l.value = (inputs.getD (beNat cvs) ⟨none, Var.one⟩).value := by
          rw [hlv, getD_take _ _ _ _ (by rw [hhalf, ← hk]; exact beNat_lt cvs)]
        rw [← hv, hlav]
        simp

/-- Witness for C2 at `F = ZMod 13`: two inputs, one constant selector bit `true`,
selecting `inputs[1]`. -/
theorem claim2_witness :
    ∃ r cs', AllocatedNum.mux_tree Mode.witness [Boolean.const true]
        ([⟨some 5, Var.aux 0⟩, ⟨some 7, Var.aux 1⟩] : List (AllocatedNum (ZMod 13)))
        ⟨[some 5, some 7], []⟩ = (.ok r, cs') ∧
      Extends ⟨[some 5, some 7], []⟩ cs' ∧ GoodCS cs' ∧ NumReal cs' r ∧
      r.value = (([⟨some 5, Var.aux 0⟩, ⟨some 7, Var.aux 1⟩] :
          List (AllocatedNum (ZMod 13))).getD (beNat [true]) ⟨none, Var.one⟩).value := by
  refine claim2 [Boolean.const true] _ _ [true] ⟨?_, ?_⟩ ?_ ?_ rfl rfl
  · intro c hc
    simp at hc
  · intro c hc
    simp at hc
  · intro i hi
    rcases List.mem_cons.mp hi with h | h
    · exact h ▸ ⟨5, rfl, Nat.zero_lt_two, rfl⟩
    · rw [List.mem_singleton.mp h]
      exact ⟨7, rfl, Nat.one_lt_two, rfl⟩
  · intro b hb
    rw [List.mem_singleton.mp hb]
    exact ⟨true, rfl, by simp [Boolean.lc, LCBound, VarBound], by
      simp [Boolean.lc, boolF, evalLC]⟩

/-! ## Bit-arithmetic lemmas -/

theorem bitsLE_succ (len n : ℕ) :
    bitsLE (len + 1) n = decide (n % 2 = 1) :: bitsLE len (n / 2) := by
  unfold bitsLE
  rw [List.range_succ_eq_map]
  simp only [List.map_cons, List.map_map]
  congr 1
  · exact Nat.testBit_zero n
  · apply List.map_congr_left
    intro i _
    exact Nat.testBit_succ n i

theorem ofBitsLE_bitsLE (len : ℕ) : ∀ n, n < 2 ^ len → ofBitsLE (bitsLE len n) = n := by
  induction len with
  | zero =>
    intro n h
    have hn : n = 0 := by simpa using Nat.lt_one_iff.mp (by simpa using h)
    subst hn
    rfl
  | succ len ih =>
    intro n h
    rw [bitsLE_succ]
    show (cond (decide (n % 2 = 1)) 1 0) + 2 * ofBitsLE (bitsLE len (n / 2)) = n
    rw [ih (n / 2) (by rw [pow_succ] at h; omega)]
    rcases Nat.mod_two_eq_zero_or_one n with hm | hm <;> simp [hm] <;> omega

theorem sumBitsF_cast {F : Type} [CommRing F] (bl : List Bool) :
    sumBitsF bl = ((ofBitsLE bl : ℕ) : F) := by
  induction bl with
  | nil => simp [sumBitsF, ofBitsLE]
  | cons b rest ih =>
    rw [sumBitsF, ofBitsLE, ih]
    push_cast
    cases b <;> simp [boolF] <;> ring

theorem evalLC_packLC {F : Type} [CommRing F] (σ : ℕ → F) {vars : List Var}
    {bl : List Bool} (h : List.Forall₂ (fun v b => evalVar σ v = boolF b) vars bl) :
    ∀ c : F, evalLC σ (packLC c vars) = c * sumBitsF bl := by
  induction h with
  | nil => simp [packLC, sumBitsF]
  | cons h1 h2 ih =>
    intro c
    rw [packLC]
    simp only [evalLC_cons]
    rw [h1, ih (c + c), sumBitsF]
    ring

/-! ## Running allocBits on concrete bit hints -/

theorem Forall₂_value_map {F : Type} {bits : List (AllocatedBit F)} {l : List Bool}
    (h : List.Forall₂ (fun (bit : AllocatedBit F) b => bit.value = some b) bits l) :
    bits.map AllocatedBit.value = l.map some := by
  induction h with
  | nil => rfl
  | cons h1 h2 ih => simp [h1, ih]

theorem allocBits_run {F : Type} [CommRing F] [Inv F] [DecidableEq F] :
    ∀ (obs : List Bool) (cs : CSState F),
    ∃ bits : List (AllocatedBit F),
      allocBits Mode.witness (obs.map some) cs =
        (.ok bits,
          ⟨cs.hints ++ obs.map (fun b => some (boolF b)),
           cs.constraints ++ bits.map (fun b => boolConstraint b.var)⟩) ∧
      List.Forall₂ (fun (bit : AllocatedBit F) (b : Bool) => bit.value = some b) bits
        obs := by
  intro obs
  induction obs with
  | nil =>
    intro cs
    exact ⟨[], by simp [allocBits, CSM.pure_def], List.Forall₂.nil⟩
  | cons b rest ih =>
    intro cs
    obtain ⟨bits', hrun, hf⟩ := ih
      ⟨cs.hints ++ [some (boolF b)],
       cs.constraints ++ [boolConstraint (Var.aux cs.hints.length)]⟩
    refine ⟨⟨some b, Var.aux cs.hints.length⟩ :: bits', ?_, List.Forall₂.cons rfl hf⟩
    rw [List.map_cons, allocBits]
    simp only [CSM.bind_def, bitAlloc_run b cs]
    simp only [CSM.bind_def, hrun]
    simp [CSM.pure_def, List.append_assoc]

/-! ## Claim C4: to_bits_le round trip -/

/-- C4: for every field value `x`, `to_bits_le` on a Committed Number allocated with hint
`x` succeeds; the output bits' hints are the little-endian bits of `x`'s canonical
representative; the registered constraints are the bits' boolean constraints followed by
the single packing constraint `0 * 0 = Σ bit_i·2^i - self`; and the hints re-summed as
`Σ bit_i·2^i` in the field reproduce `x`. -/
theorem claim4 (p : ℕ) (hp : 1 < p) (x : ZMod p) :
    ∃ (bits : List (AllocatedBit (ZMod p))) (cs' : CSState (ZMod p)),
      toBitsPipeline p Mode.witness x = (.ok (bits.map Boolean.is), cs') ∧
      bits.map AllocatedBit.value = (bitsLE (numBits p) x.val).map some ∧
      cs'.constraints =
        (bits.map fun b => boolConstraint b.var) ++
          [⟨[], [], packLC 1 (bits.map AllocatedBit.var) ++ [(Var.aux 0, -1)]⟩] ∧
      sumBitsF (bitsLE (numBits p) x.val) = x := by
  haveI : NeZero p := ⟨by omega⟩
  obtain ⟨bits, hrun, hf⟩ :=
    allocBits_run (F := ZMod p) (bitsLE (numBits p) x.val) ⟨[some x], []⟩
  have hvals : bits.map AllocatedBit.value = (bitsLE (numBits p) x.val).map some :=
    Forall₂_value_map hf
  refine ⟨bits,
    ⟨[some x] ++ (bitsLE (numBits p) x.val).map (fun b => some (boolF b)),
     (bits.map fun b => boolConstraint b.var) ++
       [⟨[], [], packLC 1 (bits.map AllocatedBit.var) ++ [(Var.aux 0, -1)]⟩]⟩,
    ?_, hvals, rfl, ?_⟩
  · unfold toBitsPipeline
    simp only [CSM.bind_def, alloc_run x ⟨[], []⟩]
    unfold to_bits_le
    simp only [List.nil_append, List.length_nil]
    simp only [CSM.bind_def, hrun]
    simp [enforceM, CSM.pure_def, packLC]
  · have hlt : x.val < 2 ^ numBits p := by
      have h1 : x.val < p := ZMod.val_lt x
      have h2 : p - 1 < 2 ^ (p - 1).size := Nat.lt_size_self (p - 1)
      unfold numBits
      omega
    rw [sumBitsF_cast, ofBitsLE_bitsLE _ _ hlt]
    exact ZMod.natCast_rightInverse x

/-- Witness for C4 at `p = 13`, `x = 11`. -/
theorem claim4_witness :
    ∃ (bits : List (AllocatedBit (ZMod 13))) (cs' : CSState (ZMod 13)),
      toBitsPipeline 13 Mode.witness 11 = (.ok (bits.map Boolean.is), cs') ∧
      bits.map AllocatedBit.value = (bitsLE (numBits 13) (11 : ZMod 13).val).map some ∧
      cs'.constraints =
        (bits.map fun b => boolConstraint b.var) ++
          [⟨[], [], packLC 1 (bits.map AllocatedBit.var) ++ [(Var.aux 0, -1)]⟩] ∧
      sumBitsF (bitsLE (numBits 13) (11 : ZMod 13).val) = (11 : ZMod 13) :=
  claim4 13 (by decide) 11

/-! ## Claim C8: div safety -/

/-- C8: under the precondition that both operands' hints are present and the divisor's
hint is a nonzero field element, `div` never reaches its internal inversion-failure
branch, succeeds with result hint `a · b⁻¹` (a genuine quotient: multiplying back by `b`
recovers `a`), and registers the constraint `result * b = a`; the nonzero-divisor
requirement is a caller-responsibility precondition, not a checked error path — no `div`
call ever returns a `DivisionByZero` error. -/
theorem claim8 {F : Type} [Field F] [DecidableEq F] (s : CSState F)
    (x y : AllocatedNum F) (a b : F) (hx : x.value = some a) (hy : y.value = some b)
    (hb : b ≠ 0) : DivSpec s x y a b := by
  refine ⟨?_, ?_, div_run hx hy s, ?_⟩
  · simp [AllocatedNum.divAssertTriggered, hy, hb]
  · rw [mul_assoc, inv_mul_cancel₀ hb, mul_one]
  · intro m s' x' y'
    cases m with
    | setup => simp [AllocatedNum.div, allocM, enforceM, CSM.bind_def, CSM.pure_def]
    | witness =>
      cases hx' : x'.value <;> cases hy' : y'.value <;>
        simp [AllocatedNum.div, allocM, enforceM, CSM.bind_def, CSM.pure_def, hx', hy']

/-- Witness for C8 at `F = ZMod 13`, hints 12 and 4. -/
theorem claim8_witness :
    DivSpec (⟨[some 12, some 4], []⟩ : CSState (ZMod 13))
      ⟨some 12, Var.aux 0⟩ ⟨some 4, Var.aux 1⟩ 12 4 := by
  have hb : (4 : ZMod 13) ≠ 0 := by decide
  haveI : Fact (Nat.Prime 13) := ⟨by norm_num⟩
  exact claim8 ⟨[some 12, some 4], []⟩ ⟨some 12, Var.aux 0⟩ ⟨some 4, Var.aux 1⟩ 12 4
    rfl rfl hb

/-! ## Claim C9: absent-hint propagation for Deferred Numbers -/

/-- C9: over every chain of Deferred Number operations built from `zero`, `add` and
`add_bool_with_coeff`, the resulting hint is present exactly when every contributing hint
is present — absent hints propagate, and all-present hints yield a present hint. -/
theorem claim9 {F : Type} [CommRing F] (e : NumExpr F) :
    (NumExpr.run e).value.isSome = NumExpr.allPresent e := by
  induction e with
  | zero => rfl
  | addBool e one bit coeff ih =>
    rw [NumExpr.run, NumExpr.allPresent, ← ih]
    cases hv : (NumExpr.run e).value with
    | none => simp [Num.add_bool_with_coeff, hv]
    | some v =>
      cases hb : bit.get_value with
      | none => simp [Num.add_bool_with_coeff, hv, hb]
      | some bv => simp [Num.add_bool_with_coeff, hv, hb]
  | add e₁ e₂ ih₁ ih₂ =>
    rw [NumExpr.run, NumExpr.allPresent, ← ih₁, ← ih₂]
    cases hv₁ : (NumExpr.run e₁).value with
    | none => simp [Num.add, hv₁]
    | some v₁ =>
      cases hv₂ : (NumExpr.run e₂).value with
      | none => simp [Num.add, hv₁, hv₂]
      | some v₂ => simp [Num.add, hv₁, hv₂]

/-! ## Claim C10: eager hint demand in is_zero vs deferred arithmetic -/

/-- C10: `is_zero` on a Committed Number with an absent hint fails with
`MissingAssignment` before allocating any variable or registering any constraint, in
every backend mode; the arithmetic operations instead defer the hint computation into
the allocation producer, so on a structure-only backend each succeeds (with an absent
hint) even when the operands' hints are absent. -/
theorem claim10 {F : Type} [CommRing F] [Inv F] [DecidableEq F] :
    (∀ (m : Mode) (s : CSState F) (x : AllocatedNum F), x.value = none →
      AllocatedNum.is_zero m x s = (.error SynthesisError.AssignmentMissing, s)) ∧
    (∀ (s : CSState F) (x y : AllocatedNum F),
      (∃ r s', AllocatedNum.add Mode.setup x y s = (.ok r, s') ∧ r.value = none) ∧
      (∃ r s', AllocatedNum.sub Mode.setup x y s = (.ok r, s') ∧ r.value = none) ∧
      (∃ r s', AllocatedNum.neg Mode.setup x s = (.ok r, s') ∧ r.value = none) ∧
      (∃ r s', AllocatedNum.mul Mode.setup x y s = (.ok r, s') ∧ r.value = none) ∧
      (∃ r s', AllocatedNum.div Mode.setup x y s = (.ok r, s') ∧ r.value = none) ∧
      (∃ r s', AllocatedNum.square Mode.setup x s = (.ok r, s') ∧ r.value = none)) := by
  constructor
  · intro m s x hx
    exact is_zero_none hx m s
  · intro s x y
    exact ⟨⟨_, _, add_setup x y s, rfl⟩, ⟨_, _, sub_setup x y s, rfl⟩,
      ⟨_, _, neg_setup x s, rfl⟩, ⟨_, _, mul_setup x y s, rfl⟩,
      ⟨_, _, div_setup x y s, rfl⟩, ⟨_, _, square_setup x s, rfl⟩⟩

/-! ## Lexicographic and big-endian bit lemmas (for the strict range check) -/

theorem length_bitsLE (len n : ℕ) : (bitsLE len n).length = len := by
  simp [bitsLE]

theorem length_bitsBE (len n : ℕ) : (bitsBE len n).length = len := by
  simp [bitsBE, length_bitsLE]

theorem bitsBE_succ (len n : ℕ) :
    bitsBE (len + 1) n = n.testBit len :: bitsBE len n := by
  unfold bitsBE bitsLE
  rw [List.range_succ]
  simp

theorem bitsBE_reverse (len n : ℕ) : (bitsBE len n).reverse = bitsLE len n := by
  simp [bitsBE]

theorem bitsBE_mod (len n : ℕ) : bitsBE len (n % 2 ^ len) = bitsBE len n := by
  unfold bitsBE bitsLE
  congr 1
  apply List.map_congr_left
  intro i hi
  rw [List.mem_range] at hi
  rw [Nat.testBit_mod_two_pow]
  simp [hi]

theorem testBit_high_iff {len n : ℕ} (h : n < 2 ^ (len + 1)) :
    n.testBit len = true ↔ 2 ^ len ≤ n := by
  rw [Nat.testBit_to_div_mod]
  have h2 : (2 : ℕ) ^ (len + 1) = 2 ^ len * 2 := pow_succ 2 len
  have hd : n / 2 ^ len < 2 := by
    rw [Nat.div_lt_iff_lt_mul (Nat.pos_pow_of_pos len (by omega))]
    omega
  have hle : 2 ^ len ≤ n ↔ 1 ≤ n / 2 ^ len := by
    rw [Nat.le_div_iff_mul_le (Nat.pos_pow_of_pos len (by omega))]
    omega
  constructor
  · intro hb
    have h1 : n / 2 ^ len % 2 = 1 := by simpa using hb
    rw [← Nat.div_add_mod (n / 2 ^ len) 2] at hd
    have h2 : n / 2 ^ len = 1 := by omega
    exact hle.mpr (by omega)
  · intro hb
    have h1 : 1 ≤ n / 2 ^ len := hle.mp hb
    have h2 : n / 2 ^ len = 1 := by omega
    simp [h2]

theorem QOk_of_le : ∀ (len n m : ℕ), n ≤ m → m < 2 ^ len →
    QOk (bitsBE len m) (bitsBE len n) := by
  intro len
  induction len with
  | zero => intro n m h hm; exact trivial
  | succ len ih =>
    intro n m h hm
    rw [bitsBE_succ, bitsBE_succ]
    have h2 : (2 : ℕ) ^ (len + 1) = 2 ^ len * 2 := pow_succ 2 len
    by_cases hmb : m.testBit len = true
    · have hm2 : 2 ^ len ≤ m := (testBit_high_iff hm).mp hmb
      rw [hmb]
      by_cases hnb : n.testBit len = true
      · have hn2 : 2 ^ len ≤ n := (testBit_high_iff (by omega)).mp hnb
        rw [hnb]
        simp only [QOk]
        intro _
        rw [← bitsBE_mod len m, ← bitsBE_mod len n]
        have hmm : m % 2 ^ len = m - 2 ^ len := by
          rw [Nat.mod_eq_sub_mod (by omega), Nat.mod_eq_of_lt (by omega)]
        have hnn : n % 2 ^ len = n - 2 ^ len := by
          rw [Nat.mod_eq_sub_mod (by omega), Nat.mod_eq_of_lt (by omega)]
        rw [hmm, hnn]
        exact ih _ _ (by omega) (by omega)
      · rw [Bool.not_eq_true] at hnb
        rw [hnb]
        simp only [QOk]
        intro hc
        exact absurd hc (by simp)
    · rw [Bool.not_eq_true] at hmb
      have hm2 : ¬2 ^ len ≤ m := fun hc => by
        rw [(testBit_high_iff hm).mpr hc] at hmb
        exact Bool.noConfusion hmb
      have hn2 : n < 2 ^ len := by omega
      have hnb : n.testBit len = false := by
        by_contra hc
        rw [Bool.not_eq_false] at hc
        have := (testBit_high_iff (by omega)).mp hc
        omega
      rw [hmb, hnb]
      simp only [QOk, eq_self_iff_true, true_and]
      exact ih _ _ h (by omega)

theorem lexBE_of_QOk : ∀ (bs bl : List Bool), QOk bs bl → lexBE bl bs = true := by
  intro bs
  induction bs with
  | nil =>
    intro bl h
    cases bl with
    | nil => rfl
    | cons b bl => exact absurd h (by simp [QOk])
  | cons b bs ih =>
    intro bl h
    cases bl with
    | nil => cases b <;> exact absurd h (by simp [QOk])
    | cons a bl =>
      cases b with
      | true =>
        cases a with
        | true =>
          have h' : QOk bs bl := by simpa [QOk] using h
          simp [lexBE, ih bl h']
        | false => simp [lexBE]
      | false =>
        obtain ⟨ha, hq⟩ : a = false ∧ QOk bs bl := by simpa [QOk] using h
        subst ha
        simp [lexBE, ih bl hq]

theorem ofBitsLE_lt : ∀ l : List Bool, ofBitsLE l < 2 ^ l.length := by
  intro l
  induction l with
  | nil => simp [ofBitsLE]
  | cons b rest ih =>
    rw [ofBitsLE]
    have : (2 : ℕ) ^ (b :: rest).length = 2 ^ rest.length * 2 := by
      simp [List.length_cons, pow_succ]
    rw [this]
    cases b <;> simp <;> omega

theorem ofBitsLE_append_one (l : List Bool) (b : Bool) :
    ofBitsLE (l ++ [b]) = ofBitsLE l + (cond b (2 ^ l.length) 0) := by
  induction l with
  | nil => cases b <;> simp [ofBitsLE]
  | cons a rest ih =>
    rw [List.cons_append, ofBitsLE, ofBitsLE, ih]
    cases b <;> simp [List.length_cons, pow_succ] <;> ring

theorem lexBE_le : ∀ (u v : List Bool), u.length = v.length → lexBE u v = true →
    ofBitsLE u.reverse ≤ ofBitsLE v.reverse := by
  intro u
  induction u with
  | nil =>
    intro v _ _
    exact Nat.zero_le _
  | cons a us ih =>
    intro v hlen hlex
    cases v with
    | nil => simp at hlen
    | cons b vs =>
      have hlen' : us.length = vs.length := by simpa using hlen
      simp only [List.reverse_cons]
      rw [ofBitsLE_append_one, ofBitsLE_append_one]
      simp only [List.length_reverse, hlen']
      rcases Bool.eq_false_or_eq_true a with ha | ha <;>
        rcases Bool.eq_false_or_eq_true b with hb | hb <;>
        subst ha <;> subst hb <;> simp [lexBE] at hlex ⊢
      · exact ih vs hlen' hlex
      · have h1 := ofBitsLE_lt us.reverse
        have h2 := ofBitsLE_lt vs.reverse
        simp only [List.length_reverse] at h1 h2
        rw [hlen'] at h1
        omega
      · exact ih vs hlen' hlex

/-! ## Shape lemmas for the boolean gadget in arbitrary mode -/

section BitCases

variable {F : Type} [CommRing F]

theorem bitAlloc_cases (m : Mode) (ov : Option Bool) (cs : CSState F) :
    AllocatedBit.alloc m ov cs = (.error SynthesisError.AssignmentMissing, cs) ∨
    ∃ (bit : AllocatedBit F) (h : Option F),
      AllocatedBit.alloc m ov cs =
        (.ok bit, ⟨cs.hints ++ [h], cs.constraints ++ [boolConstraint bit.var]⟩) := by
  cases m with
  | setup =>
    right
    exact ⟨⟨ov, Var.aux cs.hints.length⟩, none, by
      simp [AllocatedBit.alloc, allocM, enforceM, boolConstraint, CSM.bind_def,
        CSM.pure_def]⟩
  | witness =>
    cases ov with
    | none =>
      left
      simp [AllocatedBit.alloc, allocM, ofOption, Except.map, CSM.bind_def]
    | some bv =>
      right
      exact ⟨⟨some bv, Var.aux cs.hints.length⟩, some (boolF bv), by
        simp [AllocatedBit.alloc, allocM, enforceM, ofOption, Except.map,
          boolConstraint, CSM.bind_def, CSM.pure_def]⟩

theorem bitAnd_cases (m : Mode) (x y : AllocatedBit F) (cs : CSState F) :
    AllocatedBit.and m x y cs = (.error SynthesisError.AssignmentMissing, cs) ∨
    ∃ (bit : AllocatedBit F) (h : Option F),
      AllocatedBit.and m x y cs =
        (.ok bit, ⟨cs.hints ++ [h],
          cs.constraints ++ [andConstraint x.var y.var bit.var]⟩) := by
  cases m with
  | setup =>
    right
    exact ⟨⟨none, Var.aux cs.hints.length⟩, none, by
      simp [AllocatedBit.and, allocM, enforceM, andConstraint, CSM.bind_def,
        CSM.pure_def]⟩
  | witness =>
    cases hx : x.value with
    | none =>
      left
      simp [AllocatedBit.and, hx, allocM, Except.map, CSM.bind_def]
    | some xv =>
      cases hy : y.value with
      | none =>
        left
        simp [AllocatedBit.and, hx, hy, allocM, Except.map, CSM.bind_def]
      | some yv =>
        right
        exact ⟨⟨some (xv && yv), Var.aux cs.hints.length⟩, some (boolF (xv && yv)), by
          simp [AllocatedBit.and, hx, hy, allocM, enforceM, Except.map,
            Except.toOption, andConstraint, CSM.bind_def, CSM.pure_def]⟩

theorem bitAllocCond_cases (m : Mode) (ov : Option Bool) (mbf : AllocatedBit F)
    (cs : CSState F) :
    AllocatedBit.alloc_conditionally m ov mbf cs =
      (.error SynthesisError.AssignmentMissing, cs) ∨
    ∃ (bit : AllocatedBit F) (h : Option F),
      AllocatedBit.alloc_conditionally m ov mbf cs =
        (.ok bit, ⟨cs.hints ++ [h],
          cs.constraints ++ [condConstraint mbf.var bit.var]⟩) := by
  cases m with
  | setup =>
    right
    exact ⟨⟨ov, Var.aux cs.hints.length⟩, none, by
      simp [AllocatedBit.alloc_conditionally, allocM, enforceM, condConstraint,
        CSM.bind_def, CSM.pure_def]⟩
  | witness =>
    cases ov with
    | none =>
      left
      simp [AllocatedBit.alloc_conditionally, allocM, ofOption, Except.map, CSM.bind_def]
    | some bv =>
      right
      exact ⟨⟨some bv, Var.aux cs.hints.length⟩, some (boolF bv), by
        simp [AllocatedBit.alloc_conditionally, allocM, enforceM, ofOption, Except.map,
          condConstraint, CSM.bind_def, CSM.pure_def]⟩

end BitCases

/-! ## Constraint soundness lemmas -/

section ConstraintSound

variable {F : Type} [Field F]

theorem AllOnes_cons {σ : ℕ → F} {v : AllocatedBit F} {l : List (AllocatedBit F)} :
    AllOnes σ (v :: l) ↔ evalVar σ v.var = 1 ∧ AllOnes σ l := by
  simp [AllOnes]

theorem AllBool_cons {σ : ℕ → F} {v : AllocatedBit F} {l : List (AllocatedBit F)} :
    AllBool σ (v :: l) ↔ (evalVar σ v.var = 0 ∨ evalVar σ v.var = 1) ∧ AllBool σ l := by
  simp [AllBool]

theorem boolC_sound {σ : ℕ → F} {v : Var} (h : satC σ (boolConstraint v)) :
    evalVar σ v = 0 ∨ evalVar σ v = 1 := by
  unfold satC boolConstraint at h
  simp only [evalLC_cons, evalLC_nil, evalVar_one] at h
  have h' : (1 - evalVar σ v) * evalVar σ v = 0 := by linear_combination h
  rcases mul_eq_zero.mp h' with h1 | h1
  · exact Or.inr (sub_eq_zero.mp h1).symm
  · exact Or.inl h1

theorem andC_sound {σ : ℕ → F} {a b c : Var} (h : satC σ (andConstraint a b c))
    (ha : evalVar σ a = 0 ∨ evalVar σ a = 1)
    (hb : evalVar σ b = 0 ∨ evalVar σ b = 1) :
    (evalVar σ c = 0 ∨ evalVar σ c = 1) ∧
    (evalVar σ c = 1 ↔ evalVar σ a = 1 ∧ evalVar σ b = 1) := by
  unfold satC andConstraint at h
  simp only [evalLC_cons, evalLC_nil, evalVar_one, one_mul, add_zero] at h
  have hc : evalVar σ c = evalVar σ a * evalVar σ b := h.symm
  constructor
  · rcases ha with ha | ha <;> rcases hb with hb | hb <;> rw [ha, hb] at hc <;>
      simp at hc <;> simp [hc]
  · constructor
    · intro h1
      rw [h1] at hc
      rcases ha with ha | ha
      · rw [ha, zero_mul] at hc
        exact absurd hc one_ne_zero
      · rcases hb with hb | hb
        · rw [ha, hb, mul_zero] at hc
          exact absurd hc one_ne_zero
        · exact ⟨ha, hb⟩
    · rintro ⟨h1, h2⟩
      rw [h1, h2, mul_one] at hc
      exact hc

theorem condC_sound {σ : ℕ → F} {r v : Var} (h : satC σ (condConstraint r v))
    (hr : evalVar σ r = 0 ∨ evalVar σ r = 1) :
    (evalVar σ v = 0 ∨ evalVar σ v = 1) ∧ (evalVar σ r = 1 → evalVar σ v = 0) := by
  unfold satC condConstraint at h
  simp only [evalLC_cons, evalLC_nil, evalVar_one] at h
  have h' : (1 - evalVar σ r - evalVar σ v) * evalVar σ v = 0 := by linear_combination h
  rcases mul_eq_zero.mp h' with h1 | h1
  · have hv : evalVar σ v = 1 - evalVar σ r := by linear_combination -h1
    constructor
    · rcases hr with h2 | h2
      · right
        rw [hv, h2]
        ring
      · left
        rw [hv, h2]
        ring
    · intro h2
      rw [hv, h2]
      ring
  · exact ⟨Or.inl h1, fun _ => h1⟩

end ConstraintSound

/-! ## Soundness of the AND-folding loop -/

section FoldSound

variable {F : Type} [Field F]

theorem andFold_sound :
    ∀ (l : List (AllocatedBit F)) (m : Mode) (cur : AllocatedBit F) (cs : CSState F)
      (r : AllocatedBit F) (cs' : CSState F),
      andFold m cur l cs = (.ok r, cs') →
      ∃ Δ, cs'.constraints = cs.constraints ++ Δ ∧
        ∀ σ : ℕ → F, SatAll σ Δ →
          (evalVar σ cur.var = 0 ∨ evalVar σ cur.var = 1) →
          AllBool σ l →
          ((evalVar σ r.var = 0 ∨ evalVar σ r.var = 1) ∧
           (evalVar σ r.var = 1 ↔ evalVar σ cur.var = 1 ∧ AllOnes σ l)) := by
  intro l
  induction l with
  | nil =>
    intro m cur cs r cs' heq
    rw [andFold, CSM.pure_def] at heq
    obtain ⟨h1, h2⟩ :
        (Except.ok cur : Except SynthesisError (AllocatedBit F)) = Except.ok r ∧
          cs = cs' := by
      simpa [Prod.ext_iff] using heq
    obtain rfl : cur = r := by simpa using h1
    refine ⟨[], by simp [h2], ?_⟩
    intro σ _ hcur _
    refine ⟨hcur, ?_⟩
    simp [AllOnes]
  | cons v rest ih =>
    intro m cur cs r cs' heq
    rw [andFold] at heq
    rcases bitAnd_cases m cur v cs with herr | ⟨c, h, hok⟩
    · rw [CSM.bind_def, herr] at heq
      exact absurd heq (by simp)
    · simp only [CSM.bind_def, hok] at heq
      obtain ⟨Δ', hc', hp⟩ := ih m c _ r cs' heq
      refine ⟨andConstraint cur.var v.var c.var :: Δ', by simp [hc'], ?_⟩
      intro σ hsat hcur hall
      have hsatC : satC σ (andConstraint cur.var v.var c.var) :=
        hsat _ (List.mem_cons_self _ _)
      have hsat' : SatAll σ Δ' := fun cc hcc => hsat _ (List.mem_cons_of_mem _ hcc)
      have hv := (AllBool_cons.mp hall).1
      have hrest := (AllBool_cons.mp hall).2
      obtain ⟨hcB, hciff⟩ := andC_sound hsatC hcur hv
      obtain ⟨hrB, hriff⟩ := hp σ hsat' hcB hrest
      refine ⟨hrB, ?_⟩
      rw [hriff, hciff, AllOnes_cons]
      tauto

theorem kary_and_sound {m : Mode} {l : List (AllocatedBit F)} {c0 : AllocatedBit F}
    {cs : CSState F} {r : AllocatedBit F} {cs' : CSState F}
    (heq : kary_and m (c0 :: l) cs = (.ok r, cs')) :
    ∃ Δ, cs'.constraints = cs.constraints ++ Δ ∧
      ∀ σ : ℕ → F, SatAll σ Δ →
        AllBool σ (c0 :: l) →
        ((evalVar σ r.var = 0 ∨ evalVar σ r.var = 1) ∧
         (evalVar σ r.var = 1 ↔ AllOnes σ (c0 :: l))) := by
  obtain ⟨Δ, hc, hp⟩ := andFold_sound l m c0 cs r cs' heq
  refine ⟨Δ, hc, ?_⟩
  intro σ hsat hall
  obtain ⟨hB, hiff⟩ := hp σ hsat (AllBool_cons.mp hall).1 (AllBool_cons.mp hall).2
  refine ⟨hB, ?_⟩
  rw [hiff, AllOnes_cons]

end FoldSound

/-! ## Soundness of the strict decomposition loop -/

section LoopSound

variable {F : Type} [Field F]

theorem AllOnes_toList {σ : ℕ → F} {o : Option (AllocatedBit F)} :
    AllOnes σ o.toList ↔ ∀ l ∈ o, evalVar σ l.var = 1 := by
  cases o <;> simp [AllOnes]

theorem AllBool_toList {σ : ℕ → F} {o : Option (AllocatedBit F)} :
    AllBool σ o.toList ↔ ∀ l ∈ o, evalVar σ l.var = 0 ∨ evalVar σ l.var = 1 := by
  cases o <;> simp [AllBool]

theorem strictLoop_sound :
    ∀ (ps : List (Bool × Option Bool)) (m : Mode) (st : StrictState F) (cs : CSState F)
      (st' : StrictState F) (cs' : CSState F),
      strictLoop m ps st cs = (.ok st', cs') →
      st.foundOne = true →
      ∃ (newBits : List (AllocatedBit F)) (Δ : List (Constraint F)),
        st'.result = st.result ++ newBits ∧
        cs'.constraints = cs.constraints ++ Δ ∧
        ∀ σ : ℕ → F, SatAll σ Δ →
          AllBool σ st.currentRun →
          (∀ l ∈ st.lastRun, evalVar σ l.var = 0 ∨ evalVar σ l.var = 1) →
          AllBool σ newBits ∧
          (Tight σ st → QOkF σ (ps.map Prod.fst) newBits) := by
  intro ps
  induction ps with
  | nil =>
    intro m st cs st' cs' heq _
    rw [strictLoop, CSM.pure_def] at heq
    obtain ⟨h1, h2⟩ :
        (Except.ok st : Except SynthesisError (StrictState F)) = Except.ok st' ∧
          cs = cs' := by
      simpa [Prod.ext_iff] using heq
    obtain rfl : st = st' := by simpa using h1
    refine ⟨[], [], by simp, by simp [h2], ?_⟩
    intro σ _ _ _
    exact ⟨fun x hx => absurd hx (List.not_mem_nil x), fun _ => trivial⟩
  | cons p ps ih =>
    obtain ⟨b, ab⟩ := p
    intro m st cs st' cs' heq hfo
    rw [strictLoop] at heq
    simp only [hfo, Bool.true_or, Bool.not_true, Bool.false_eq_true, if_false] at heq
    cases b with
    | true =>
      simp only [if_true] at heq
      rcases bitAlloc_cases m ab cs with herr | ⟨bit, h, hok⟩
      · simp only [CSM.bind_def, herr] at heq
        exact absurd heq (by simp)
      · simp only [CSM.bind_def, hok] at heq
        obtain ⟨nb, Δ', hres, hcon, hp⟩ := ih m _ _ st' cs' heq rfl
        refine ⟨bit :: nb, boolConstraint bit.var :: Δ', by simp [hres],
          by simp [hcon], ?_⟩
        intro σ hsat hcr hlr
        have hbool := boolC_sound (hsat _ (List.mem_cons_self _ _))
        have hsat' : SatAll σ Δ' := fun c hc => hsat _ (List.mem_cons_of_mem _ hc)
        have hcr₂ : AllBool σ (st.currentRun ++ [bit]) := by
          intro x hx
          rcases List.mem_append.mp hx with hx | hx
          · exact hcr x hx
          · rw [List.mem_singleton.mp hx]
            exact hbool
        obtain ⟨hnb, hq⟩ := hp σ hsat' hcr₂ hlr
        refine ⟨?_, ?_⟩
        · intro x hx
          rcases List.mem_cons.mp hx with hx | hx
          · rw [hx]
            exact hbool
          · exact hnb x hx
        · intro htight
          show QOkF σ (true :: ps.map Prod.fst) (bit :: nb)
          simp only [QOkF]
          intro h1
          apply hq
          refine ⟨?_, htight.2⟩
          intro x hx
          rcases List.mem_append.mp hx with hx | hx
          · exact htight.1 x hx
          · rw [List.mem_singleton.mp hx]
            exact h1
    | false =>
      simp only [Bool.false_eq_true, if_false] at heq
      cases hcr0 : st.currentRun with
      | nil =>
        rw [hcr0] at heq
        simp only [List.isEmpty_nil, if_true, CSM.bind_def, CSM.pure_def] at heq
        cases hlr0 : st.lastRun with
        | none =>
          rw [hlr0] at heq
          exact absurd heq (by simp [throwE])
        | some lr =>
          rw [hlr0] at heq
          rcases bitAllocCond_cases m ab lr cs with herr | ⟨bit, h, hok⟩
          · simp only [CSM.bind_def, herr] at heq
            exact absurd heq (by simp)
          · simp only [CSM.bind_def, hok] at heq
            obtain ⟨nb, Δ', hres, hcon, hp⟩ := ih m _ _ st' cs' heq rfl
            refine ⟨bit :: nb, condConstraint lr.var bit.var :: Δ', by simp [hres],
              by simp [hcon], ?_⟩
            intro σ hsat hcr hlr2
            have hlrB : evalVar σ lr.var = 0 ∨ evalVar σ lr.var = 1 := by
              apply hlr2
              simp [hlr0]
            obtain ⟨hbitB, hforce⟩ :=
              condC_sound (hsat _ (List.mem_cons_self _ _)) hlrB
            have hsat' : SatAll σ Δ' := fun c hc => hsat _ (List.mem_cons_of_mem _ hc)
            obtain ⟨hnb, hq⟩ := hp σ hsat'
              (fun x hx => absurd hx (List.not_mem_nil x))
              (by
                intro l hl
                obtain rfl : lr = l := by simpa using hl
                exact hlrB)
            refine ⟨?_, ?_⟩
            · intro x hx
              rcases List.mem_cons.mp hx with hx | hx
              · rw [hx]
                exact hbitB
              · exact hnb x hx
            · intro htight
              have hlr1 : evalVar σ lr.var = 1 := by
                apply htight.2
                simp [hlr0]
              show QOkF σ (false :: ps.map Prod.fst) (bit :: nb)
              simp only [QOkF]
              refine ⟨hforce hlr1, ?_⟩
              apply hq
              refine ⟨fun x hx => absurd hx (List.not_mem_nil x), ?_⟩
              intro l hl
              obtain rfl : lr = l := by simpa using hl
              exact hlr1
      | cons c0 crest =>
        rw [hcr0] at heq
        simp only [List.isEmpty_cons, Bool.false_eq_true, if_false, List.cons_append,
          CSM.bind_def, CSM.pure_def] at heq
        rcases hkeq : kary_and m (c0 :: (crest ++ st.lastRun.toList)) cs with ⟨ek, cs₁⟩
        cases ek with
        | error e =>
          rw [hkeq] at heq
          exact absurd heq (by simp)
        | ok lr' =>
          rw [hkeq] at heq
          simp only [CSM.pure_def] at heq
          obtain ⟨Δ₀, hc₀, hkp⟩ := kary_and_sound hkeq
          rcases bitAllocCond_cases m ab lr' cs₁ with herr | ⟨bit, h, hok⟩
          · simp only [CSM.bind_def, herr] at heq
            exact absurd heq (by simp)
          · simp only [CSM.bind_def, hok] at heq
            obtain ⟨nb, Δ', hres, hcon, hp⟩ := ih m _ _ st' cs' heq rfl
            refine ⟨bit :: nb, Δ₀ ++ (condConstraint lr'.var bit.var :: Δ'),
              by simp [hres], by simp [hcon, hc₀], ?_⟩
            intro σ hsat hcr hlr2
            have hsat₀ : SatAll σ Δ₀ :=
              fun c hc => hsat _ (List.mem_append_left _ hc)
            have hsatC : satC σ (condConstraint lr'.var bit.var) :=
              hsat _ (List.mem_append_right _ (List.mem_cons_self _ _))
            have hsat' : SatAll σ Δ' :=
              fun c hc => hsat _ (List.mem_append_right _ (List.mem_cons_of_mem _ hc))
            have hallK : AllBool σ (c0 :: (crest ++ st.lastRun.toList)) := by
              intro x hx
              rcases List.mem_cons.mp hx with hx | hx
              · rw [hx]
                exact hcr c0 (by simp [hcr0])
              · rcases List.mem_append.mp hx with hx | hx
                · exact hcr x (by simp [hcr0, hx])
                · exact AllBool_toList.mpr hlr2 x hx
            obtain ⟨hlrB, hlriff⟩ := hkp σ hsat₀ hallK
            obtain ⟨hbitB, hforce⟩ := condC_sound hsatC hlrB
            obtain ⟨hnb, hq⟩ := hp σ hsat'
              (fun x hx => absurd hx (List.not_mem_nil x))
              (by
                intro l hl
                obtain rfl : lr' = l := by simpa using hl
                exact hlrB)
            refine ⟨?_, ?_⟩
            · intro x hx
              rcases List.mem_cons.mp hx with hx | hx
              · rw [hx]
                exact hbitB
              · exact hnb x hx
            · intro htight
              have hallOne : AllOnes σ (c0 :: (crest ++ st.lastRun.toList)) := by
                intro x hx
                rcases List.mem_cons.mp hx with hx | hx
                · rw [hx]
                  exact htight.1 c0 (by simp [hcr0])
                · rcases List.mem_append.mp hx with hx | hx
                  · exact htight.1 x (by simp [hcr0, hx])
                  · exact AllOnes_toList.mpr htight.2 x hx
              have hlr1 : evalVar σ lr'.var = 1 := hlriff.mpr hallOne
              show QOkF σ (false :: ps.map Prod.fst) (bit :: nb)
              simp only [QOkF]
              refine ⟨hforce hlr1, ?_⟩
              apply hq
              refine ⟨fun x hx => absurd hx (List.not_mem_nil x), ?_⟩
              intro l hl
              obtain rfl : lr' = l := by simpa using hl
              exact hlr1

end LoopSound

/-! ## Completeness lemmas: running the boolean gadget on present hints -/

section BitGood

variable {F : Type} [CommRing F] [Inv F] [DecidableEq F]

theorem bitAlloc_good {cs : CSState F} (hg : GoodCS cs) (bv : Bool) :
    ∃ (bit : AllocatedBit F) (cs' : CSState F),
      AllocatedBit.alloc Mode.witness (some bv) cs = (.ok bit, cs') ∧
      cs'.constraints = cs.constraints ++ [boolConstraint bit.var] ∧
      Extends cs cs' ∧ GoodCS cs' ∧ BitReal cs' bit ∧ bit.value = some bv := by
  refine ⟨⟨some bv, Var.aux cs.hints.length⟩, _, bitAlloc_run bv cs, rfl,
    ⟨[some (boolF bv)], rfl⟩, ?_, ?_, rfl⟩
  · refine good_step hg (some (boolF bv)) _ ?_ ?_
    · refine ⟨?_, ?_, ?_⟩
      · intro t ht
        rcases List.mem_cons.mp ht with ht | ht
        · rw [ht]; trivial
        · rw [List.mem_singleton.mp ht]
          show cs.hints.length < cs.hints.length + 1
          omega
      · intro t ht
        rw [List.mem_singleton.mp ht]
        show cs.hints.length < cs.hints.length + 1
        omega
      · intro t ht
        exact absurd ht (List.not_mem_nil t)
    · unfold satC boolConstraint
      simp only [evalLC_cons, evalLC_nil, evalVar_one, evalVar_aux]
      rw [hintAsg_new]
      cases bv <;> simp [boolF]
  · exact ⟨cs.hints.length, bv, rfl, rfl, by
      rw [List.getElem?_concat_length]⟩

theorem bitAnd_good {cs : CSState F} (hg : GoodCS cs) {x y : AllocatedBit F}
    {xv yv : Bool} (hx : BitReal cs x) (hxv : x.value = some xv) (hy : BitReal cs y)
    (hyv : y.value = some yv) :
    ∃ (bit : AllocatedBit F) (cs' : CSState F),
      AllocatedBit.and Mode.witness x y cs = (.ok bit, cs') ∧
      Extends cs cs' ∧ GoodCS cs' ∧ BitReal cs' bit ∧ bit.value = some (xv && yv) := by
  refine ⟨⟨some (xv && yv), Var.aux cs.hints.length⟩, _, bitAnd_run hxv hyv cs,
    ⟨[some (boolF (xv && yv))], rfl⟩, ?_, ?_, rfl⟩
  · refine good_step hg (some (boolF (xv && yv))) _ ?_ ?_
    · refine ⟨?_, ?_, ?_⟩
      · intro t ht
        rw [List.mem_singleton.mp ht]
        exact varBound_mono (by omega) hx.varBound
      · intro t ht
        rw [List.mem_singleton.mp ht]
        exact varBound_mono (by omega) hy.varBound
      · intro t ht
        rw [List.mem_singleton.mp ht]
        show cs.hints.length < cs.hints.length + 1
        omega
    · obtain ⟨xv', hxv', hxe⟩ := hx.evalVar
      obtain ⟨yv', hyv', hye⟩ := hy.evalVar
      rw [hxv] at hxv'
      rw [hyv] at hyv'
      obtain rfl : xv = xv' := Option.some_injective _ hxv'
      obtain rfl : yv = yv' := Option.some_injective _ hyv'
      have hE : Extends cs
          (⟨cs.hints ++ [some (boolF (xv && yv))],
            cs.constraints ++
              [⟨[(x.var, 1)], [(y.var, 1)], [(Var.aux cs.hints.length, 1)]⟩]⟩ :
            CSState F) := ⟨[some (boolF (xv && yv))], rfl⟩
      unfold satC
      simp only [evalLC_cons, evalLC_nil, evalVar_aux]
      rw [evalVar_extend hE hx.varBound, evalVar_extend hE hy.varBound, hxe, hye,
        hintAsg_new]
      cases xv <;> cases yv <;> simp [boolF]
  · exact ⟨cs.hints.length, xv && yv, rfl, rfl, by
      rw [List.getElem?_concat_length]⟩

theorem bitAllocCond_good {cs : CSState F} (hg : GoodCS cs) {mbf : AllocatedBit F}
    {rv bv : Bool} (hm : BitReal cs mbf) (hmv : mbf.value = some rv)
    (hside : bv = true → rv = false) :
    ∃ (bit : AllocatedBit F) (cs' : CSState F),
      AllocatedBit.alloc_conditionally Mode.witness (some bv) mbf cs = (.ok bit, cs') ∧
      Extends cs cs' ∧ GoodCS cs' ∧ BitReal cs' bit ∧ bit.value = some bv := by
  refine ⟨⟨some bv, Var.aux cs.hints.length⟩, _, bitAllocCond_run bv mbf cs,
    ⟨[some (boolF bv)], rfl⟩, ?_, ?_, rfl⟩
  · refine good_step hg (some (boolF bv)) _ ?_ ?_
    · refine ⟨?_, ?_, ?_⟩
      · intro t ht
        rcases List.mem_cons.mp ht with ht | ht
        · rw [ht]; trivial
        · rcases List.mem_cons.mp ht with ht | ht
          · rw [ht]
            exact varBound_mono (by omega) hm.varBound
          · rw [List.mem_singleton.mp ht]
            show cs.hints.length < cs.hints.length + 1
            omega
      · intro t ht
        rw [List.mem_singleton.mp ht]
        show cs.hints.length < cs.hints.length + 1
        omega
      · intro t ht
        exact absurd ht (List.not_mem_nil t)
    · obtain ⟨rv', hrv', hre⟩ := hm.evalVar
      rw [hmv] at hrv'
      obtain rfl : rv = rv' := Option.some_injective _ hrv'
      have hE : Extends cs
          (⟨cs.hints ++ [some (boolF bv)],
            cs.constraints ++
              [⟨[(Var.one, 1), (mbf.var, -1), (Var.aux cs.hints.length, -1)],
                [(Var.aux cs.hints.length, 1)], []⟩]⟩ : CSState F) :=
        ⟨[some (boolF bv)], rfl⟩
      unfold satC
      simp only [evalLC_cons, evalLC_nil, evalVar_aux, evalVar_one]
      rw [evalVar_extend hE hm.varBound, hre, hintAsg_new]
      cases hbv : bv with
      | false => simp [boolF]
      | true =>
        rw [hside hbv]
        simp [boolF]
  · exact ⟨cs.hints.length, bv, rfl, rfl, by
      rw [List.getElem?_concat_length]⟩

theorem Forall₂_real_of_mem {cs : CSState F} {l : List (AllocatedBit F)}
    (h : ∀ b ∈ l, BitReal cs b) :
    List.Forall₂ (fun (b : AllocatedBit F) (v : Bool) => BitReal cs b ∧ b.value = some v)
      l (l.map fun b => b.value.getD false) := by
  induction l with
  | nil => exact List.Forall₂.nil
  | cons b rest ih =>
    rw [List.map_cons]
    refine List.Forall₂.cons ⟨h b (List.mem_cons_self _ _), ?_⟩
      (ih fun x hx => h x (List.mem_cons_of_mem _ hx))
    obtain ⟨i, bv, _, hval, _⟩ := h b (List.mem_cons_self _ _)
    rw [hval]
    rfl

theorem foldl_and_eq : ∀ (lv : List Bool) (c : Bool),
    lv.foldl (fun a b => a && b) c = (c && lv.all fun x => x) := by
  intro lv
  induction lv with
  | nil => intro c; simp
  | cons v t ih =>
    intro c
    rw [List.foldl_cons, ih (c && v)]
    simp [Bool.and_assoc]

theorem andFold_good :
    ∀ (l : List (AllocatedBit F)) (lv : List Bool) (cs : CSState F)
      (cur : AllocatedBit F) (cv : Bool),
      GoodCS cs → BitReal cs cur → cur.value = some cv →
      List.Forall₂
        (fun (b : AllocatedBit F) (v : Bool) => BitReal cs b ∧ b.value = some v) l lv →
      ∃ (r : AllocatedBit F) (cs' : CSState F),
        andFold Mode.witness cur l cs = (.ok r, cs') ∧
        Extends cs cs' ∧ GoodCS cs' ∧ BitReal cs' r ∧
        r.value = some (lv.foldl (fun a b => a && b) cv) := by
  intro l
  induction l with
  | nil =>
    intro lv cs cur cv hg hcur hcv hf
    cases hf
    exact ⟨cur, cs, by rw [andFold, CSM.pure_def], Extends.refl cs, hg, hcur, by
      simpa using hcv⟩
  | cons b rest ih =>
    intro lv cs cur cv hg hcur hcv hf
    cases hf with
    | cons hbv hrest =>
      obtain ⟨hbr, hbval⟩ := hbv
      obtain ⟨c, cs₁, hrun, hE₁, hg₁, hcr, hcval⟩ := bitAnd_good hg hcur hcv hbr hbval
      have hrest' := hrest.imp
        (fun hb => ⟨bitReal_extend hE₁ hb.1, hb.2⟩ :
          ∀ {bb : AllocatedBit F} {vv : Bool},
            BitReal cs bb ∧ bb.value = some vv → BitReal cs₁ bb ∧ bb.value = some vv)
      obtain ⟨r, cs₂, hrun₂, hE₂, hg₂, hrr, hrval⟩ := ih _ cs₁ c _ hg₁ hcr hcval hrest'
      refine ⟨r, cs₂, ?_, hE₁.trans hE₂, hg₂, hrr, ?_⟩
      · rw [andFold]
        simp only [CSM.bind_def, hrun]
        exact hrun₂
      · rw [hrval, List.foldl_cons]

end BitGood

/-! ## Completeness of the strict decomposition loop -/

section LoopGood

variable {F : Type} [CommRing F] [Inv F] [DecidableEq F]

theorem real_value_getD {cs : CSState F} {b : AllocatedBit F} (h : BitReal cs b) :
    b.value = some (b.value.getD false) := by
  obtain ⟨i, bv, _, hval, _⟩ := h
  rw [hval]
  rfl

theorem all_map_getD (l : List (AllocatedBit F)) :
    (l.map (fun b => b.value.getD false)).all (fun x => x) =
      l.all (fun b => b.value.getD false) := by
  induction l with
  | nil => rfl
  | cons a l ih => simp [ih]

theorem strictLoop_good :
    ∀ (bs as_ : List Bool) (st : StrictState F) (cs : CSState F),
      GoodCS cs →
      st.foundOne = true →
      (∀ b ∈ st.currentRun, BitReal cs b) →
      (∀ l ∈ st.lastRun, BitReal cs l) →
      (st.currentRun ≠ [] ∨ st.lastRun ≠ none) →
      (tightB st = true → QOk bs as_) →
      bs.length = as_.length →
      ∃ (st' : StrictState F) (cs' : CSState F) (newBits : List (AllocatedBit F)),
        strictLoop Mode.witness (bs.zip (as_.map some)) st cs = (.ok st', cs') ∧
        st'.result = st.result ++ newBits ∧
        Extends cs cs' ∧ GoodCS cs' ∧
        List.Forall₂ (fun (bit : AllocatedBit F) (v : Bool) =>
          BitReal cs' bit ∧ bit.value = some v) newBits as_ := by
  intro bs
  induction bs with
  | nil =>
    intro as_ st cs hg hfo _ _ _ _ hlen
    obtain rfl : as_ = [] := by
      cases as_ with
      | nil => rfl
      | cons a as_ => simp at hlen
    refine ⟨st, cs, [], ?_, by simp, Extends.refl cs, hg, List.Forall₂.nil⟩
    show strictLoop Mode.witness [] st cs = _
    rw [strictLoop, CSM.pure_def]
  | cons b bs' ih =>
    intro as_ st cs hg hfo hcr hlr hne hQ hlen
    obtain ⟨a, as', rfl⟩ : ∃ a as', as_ = a :: as' := by
      cases as_ with
      | nil => simp at hlen
      | cons a as' => exact ⟨a, as', rfl⟩
    have hlen' : bs'.length = as'.length := by simpa using hlen
    cases b with
    | true =>
      obtain ⟨bit, cs₁, hrun₁, hcon₁, hE₁, hg₁, hbr, hbv⟩ := bitAlloc_good hg a
      have hcr₂ : ∀ x ∈ st.currentRun ++ [bit], BitReal cs₁ x := by
        intro x hx
        rcases List.mem_append.mp hx with hx | hx
        · exact bitReal_extend hE₁ (hcr x hx)
        · rw [List.mem_singleton.mp hx]
          exact hbr
      have hlr₂ : ∀ l ∈ st.lastRun, BitReal cs₁ l := fun l hl => bitReal_extend hE₁ (hlr l hl)
      have htB₂ : tightB
          (⟨st.result ++ [bit], st.lastRun, st.currentRun ++ [bit], true⟩ :
            StrictState F) = true → QOk bs' as' := by
        intro h2
        simp only [tightB, List.all_append, List.all_cons, List.all_nil, hbv,
          Option.getD_some, Bool.and_true, Bool.and_eq_true] at h2
        have hA : tightB st = true := by
          simp only [tightB, Bool.and_eq_true]
          exact ⟨h2.1.1, h2.2⟩
        have hq := hQ hA
        have hq' : a = true → QOk bs' as' := by simpa [QOk] using hq
        exact hq' h2.1.2
      obtain ⟨st', cs', nb', hrun', hres', hE', hg', hf'⟩ :=
        ih as' ⟨st.result ++ [bit], st.lastRun, st.currentRun ++ [bit], true⟩ cs₁ hg₁
          rfl hcr₂ hlr₂ (Or.inl (by simp)) htB₂ hlen'
      refine ⟨st', cs', bit :: nb', ?_, ?_, hE₁.trans hE', hg',
        List.Forall₂.cons ⟨bitReal_extend hE' hbr, hbv⟩ hf'⟩
      · simp only [List.map_cons, List.zip_cons_cons]
        rw [strictLoop]
        simp only [hfo, Bool.true_or, Bool.not_true, Bool.false_eq_true, if_false,
          if_true]
        simp only [CSM.bind_def, hrun₁]
        exact hrun'
      · rw [hres']
        simp
    | false =>
      have hside : a = true → tightB st = false := by
        intro ha
        by_contra hA
        rw [Bool.not_eq_false] at hA
        have hq := hQ hA
        have hq' : a = false ∧ QOk bs' as' := by simpa [QOk] using hq
        rw [ha] at hq'
        exact Bool.noConfusion hq'.1
      cases hcr0 : st.currentRun with
      | nil =>
        cases hlr0 : st.lastRun with
        | none =>
          exfalso
          rcases hne with h | h
          · exact h hcr0
          · exact h hlr0
        | some lr =>
          have hlrR : BitReal cs lr := hlr lr (by simp [hlr0])
          have hlrv := real_value_getD hlrR
          have hAval : tightB st = lr.value.getD false := by
            simp [tightB, hcr0, hlr0]
          have hside' : a = true → lr.value.getD false = false := by
            intro ha
            rw [← hAval]
            exact hside ha
          obtain ⟨bit, cs₁, hrun₁, hE₁, hg₁, hbr, hbv⟩ :=
            bitAllocCond_good hg hlrR hlrv hside'
          have htB₂ : tightB
              (⟨st.result ++ [bit], st.lastRun, [], true⟩ : StrictState F) = true →
              QOk bs' as' := by
            intro h2
            have hA : tightB st = true := by
              simp only [tightB, List.all_nil, Bool.true_and] at h2 ⊢
              rw [hcr0]
              simpa using h2
            have hq := hQ hA
            exact (by simpa [QOk] using hq : a = false ∧ QOk bs' as').2
          obtain ⟨st', cs', nb', hrun', hres', hE', hg', hf'⟩ :=
            ih as' ⟨st.result ++ [bit], st.lastRun, [], true⟩ cs₁ hg₁ rfl
              (fun x hx => absurd hx (List.not_mem_nil x))
              (fun l hl => bitReal_extend hE₁ (hlr l hl))
              (Or.inr (by simp [hlr0])) htB₂ hlen'
          refine ⟨st', cs', bit :: nb', ?_, ?_, hE₁.trans hE', hg',
            List.Forall₂.cons ⟨bitReal_extend hE' hbr, hbv⟩ hf'⟩
          · simp only [List.map_cons, List.zip_cons_cons]
            rw [strictLoop]
            simp only [hfo, Bool.true_or, Bool.not_true, Bool.false_eq_true, if_false]
            simp only [hcr0, hlr0, List.isEmpty_nil, if_true, CSM.bind_def,
              CSM.pure_def]
            simp only [CSM.bind_def, hrun₁]
            rw [hlr0] at hrun'
            exact hrun'
          · rw [hres']
            simp
      | cons c0 crest =>
        have hc0R : BitReal cs c0 := hcr c0 (by simp [hcr0])
        have hrestR : ∀ x ∈ crest ++ st.lastRun.toList, BitReal cs x := by
          intro x hx
          rcases List.mem_append.mp hx with hx | hx
          · exact hcr x (by simp [hcr0, hx])
          · refine hlr x ?_
            cases hlo : st.lastRun with
            | none => rw [hlo] at hx; simp at hx
            | some l =>
              rw [hlo] at hx
              simp at hx
              simp [hx]
        obtain ⟨lr', cs₁, hrunK, hE₁, hg₁, hlrR', hlrv'⟩ :=
          andFold_good (crest ++ st.lastRun.toList) _ cs c0 (c0.value.getD false) hg
            hc0R (real_value_getD hc0R) (Forall₂_real_of_mem hrestR)
        have hval : lr'.value = some (tightB st) := by
          rw [hlrv']
          congr 1
          rw [foldl_and_eq]
          simp only [tightB, hcr0, List.all_cons, List.all_append, List.all_map,
            Function.comp]
          cases hlo : st.lastRun with
          | none => simp [all_map_getD, Bool.and_assoc]
          | some l => simp [all_map_getD, Bool.and_assoc]
        have hside' : a = true → tightB st = false := hside
        obtain ⟨bit, cs₂, hrun₂, hE₂, hg₂, hbr, hbv⟩ :=
          bitAllocCond_good hg₁ hlrR' hval hside'
        have htB₂ : tightB
            (⟨st.result ++ [bit], some lr', [], true⟩ : StrictState F) = true →
            QOk bs' as' := by
          intro h2
          simp only [tightB, List.all_nil, Bool.true_and, hval, Option.getD_some] at h2
          have hq := hQ h2
          exact (by simpa [QOk] using hq : a = false ∧ QOk bs' as').2
        obtain ⟨st', cs', nb', hrun', hres', hE', hg', hf'⟩ :=
          ih as' ⟨st.result ++ [bit], some lr', [], true⟩ cs₂ hg₂ rfl
            (fun x hx => absurd hx (List.not_mem_nil x))
            (by
              intro l hl
              obtain rfl : lr' = l := by simpa using hl
              exact bitReal_extend hE₂ hlrR')
            (Or.inr (by simp)) htB₂ hlen'
        refine ⟨st', cs', bit :: nb', ?_, ?_, (hE₁.trans hE₂).trans hE', hg',
          List.Forall₂.cons ⟨bitReal_extend hE' hbr, hbv⟩ hf'⟩
        · simp only [List.map_cons, List.zip_cons_cons]
          rw [strictLoop]
          simp only [hfo, Bool.true_or, Bool.not_true, Bool.false_eq_true, if_false]
          simp only [hcr0, List.isEmpty_cons, Bool.false_eq_true, if_false,
            List.cons_append]
          rw [kary_and]
          simp only [CSM.bind_def, hrunK, CSM.pure_def]
          simp only [CSM.bind_def, hrun₂]
          exact hrun'
        · rw [hres']
          simp

end LoopGood

/-! ## Assembly lemmas for the strict decomposition claim -/

section Claim1Helpers

variable {F : Type} [CommRing F] [Inv F] [DecidableEq F]

theorem good_enforce {cs : CSState F} (hg : GoodCS cs) {c : Constraint F}
    (hb : CBound cs.hints.length c) (hs : satC (hintAsg cs) c) :
    GoodCS (⟨cs.hints, cs.constraints ++ [c]⟩ : CSState F) := by
  constructor
  · intro c' hc'
    rcases List.mem_append.mp hc' with h | h
    · exact hg.1 c' h
    · rw [List.mem_singleton.mp h]
      exact hb
  · intro c' hc'
    rcases List.mem_append.mp hc' with h | h
    · exact hg.2 c' h
    · rw [List.mem_singleton.mp h]
      exact hs

theorem packLC_bound {n : ℕ} :
    ∀ (vars : List Var) (c : F), (∀ v ∈ vars, VarBound n v) →
      LCBound n (packLC c vars) := by
  intro vars
  induction vars with
  | nil =>
    intro c _ t ht
    exact absurd ht (List.not_mem_nil t)
  | cons v rest ih =>
    intro c hv t ht
    rw [packLC] at ht
    rcases List.mem_cons.mp ht with h | h
    · rw [h]
      exact hv v (List.mem_cons_self _ _)
    · exact ih (c + c) (fun u hu => hv u (List.mem_cons_of_mem _ hu)) t h

theorem QOk_of_QOkF {σ : ℕ → F} (h01 : (0 : F) ≠ 1) :
    ∀ (bs : List Bool) (rs : List (AllocatedBit F)), QOkF σ bs rs →
      QOk bs (rs.map fun r => decide (evalVar σ r.var = 1)) := by
  intro bs
  induction bs with
  | nil =>
    intro rs h
    cases rs with
    | nil => exact trivial
    | cons r rs => exact absurd h (by simp [QOkF])
  | cons b bs ih =>
    intro rs h
    cases rs with
    | nil => cases b <;> exact absurd h (by simp [QOkF])
    | cons r rs =>
      cases b with
      | true =>
        have h' : evalVar σ r.var = 1 → QOkF σ bs rs := h
        simp only [List.map_cons, QOk]
        intro hd
        exact ih rs (h' (of_decide_eq_true hd))
      | false =>
        obtain ⟨h0, h'⟩ : evalVar σ r.var = 0 ∧ QOkF σ bs rs := h
        simp only [List.map_cons, QOk]
        exact ⟨decide_eq_false (fun he => h01 (h0.symm.trans he)), ih rs h'⟩

theorem eval_boolF_repr {σ : ℕ → F} (h01 : (0 : F) ≠ 1) :
    ∀ (rs : List (AllocatedBit F)), AllBool σ rs →
      rs.map (fun r => evalVar σ r.var) =
        (rs.map fun r => decide (evalVar σ r.var = 1)).map boolF := by
  intro rs
  induction rs with
  | nil =>
    intro _
    rfl
  | cons r rs ih =>
    intro h
    have hr := h r (List.mem_cons_self _ _)
    have hrest : AllBool σ rs := fun x hx => h x (List.mem_cons_of_mem _ hx)
    simp only [List.map_cons]
    rw [← ih hrest]
    rcases hr with h0 | h1
    · rw [h0, decide_eq_false (fun he => h01 he)]
      simp [boolF]
    · rw [h1]
      simp [boolF]

theorem map_boolF_inj (h01 : (0 : F) ≠ 1) :
    ∀ {u v : List Bool}, u.map (boolF (F := F)) = v.map boolF → u = v := by
  intro u
  induction u with
  | nil =>
    intro v h
    cases v with
    | nil => rfl
    | cons b v => simp at h
  | cons a u ih =>
    intro v h
    cases v with
    | nil => simp at h
    | cons b v =>
      simp only [List.map_cons, List.cons.injEq] at h
      have hab : a = b := by
        cases a with
        | false =>
          cases b with
          | false => rfl
          | true =>
            exfalso
            have : (0 : F) = 1 := by simpa [boolF] using h.1
            exact h01 this
        | true =>
          cases b with
          | false =>
            exfalso
            have : (1 : F) = 0 := by simpa [boolF] using h.1
            exact h01 this.symm
          | true => rfl
      rw [hab, ih h.2]

theorem forall₂_append_single {α β : Type} {r : α → β → Prop} {a : α} {b : β} :
    ∀ {l₁ : List α} {l₂ : List β}, List.Forall₂ r l₁ l₂ → r a b →
      List.Forall₂ r (l₁ ++ [a]) (l₂ ++ [b]) := by
  intro l₁ l₂ h hab
  induction h with
  | nil => exact List.Forall₂.cons hab List.Forall₂.nil
  | cons h1 h2 ih => exact List.Forall₂.cons h1 ih

theorem forall₂_reverse {α β : Type} {r : α → β → Prop} :
    ∀ {l₁ : List α} {l₂ : List β}, List.Forall₂ r l₁ l₂ →
      List.Forall₂ r l₁.reverse l₂.reverse := by
  intro l₁ l₂ h
  induction h with
  | nil => exact List.Forall₂.nil
  | cons h1 h2 ih =>
    simp only [List.reverse_cons]
    exact forall₂_append_single ih h1

theorem forall₂_map_left {α β γ : Type} {f : α → γ} {r : γ → β → Prop} :
    ∀ {l₁ : List α} {l₂ : List β}, List.Forall₂ (fun a b => r (f a) b) l₁ l₂ →
      List.Forall₂ r (l₁.map f) l₂ := by
  intro l₁ l₂ h
  induction h with
  | nil => exact List.Forall₂.nil
  | cons h1 h2 ih =>
    simp only [List.map_cons]
    exact List.Forall₂.cons h1 ih

theorem forall₂_mem_left {α β : Type} {r : α → β → Prop} :
    ∀ {l₁ : List α} {l₂ : List β}, List.Forall₂ r l₁ l₂ →
      ∀ a ∈ l₁, ∃ b ∈ l₂, r a b := by
  intro l₁ l₂ h
  induction h with
  | nil =>
    intro a ha
    exact absurd ha (List.not_mem_nil a)
  | cons h1 h2 ih =>
    intro a ha
    rcases List.mem_cons.mp ha with ha | ha
    · exact ⟨_, List.mem_cons_self _ _, ha ▸ h1⟩
    · obtain ⟨b, hb, hr⟩ := ih a ha
      exact ⟨b, List.mem_cons_of_mem _ hb, hr⟩

end Claim1Helpers

/-! ## Claim C1: strict decomposition — completeness, soundness and aliasing -/

/-- C1: for every field value `x` of an odd prime field, running `to_bits_le_strict` on a
Committed Number allocated with hint `x` succeeds with the little-endian Booleans of the
collected big-endian bit list `res`; the collected bits are hinted with the big-endian
bits of `x`'s canonical representative; the registered constraints are satisfied by the
hinted assignment (in which the output bits are the little-endian bits of the canonical
representative); in every satisfying assignment the output bits are boolean and, read
most-significant first, are lexicographically at most the bits of `characteristic − 1`;
hence any assignment reading as an aliased out-of-range representative `n ≥ p` (in
particular `n = p` itself, the alias of `0 = (p−1)+1−p+…`, and `n = x.val + p` whenever
representable) violates some registered constraint. -/
theorem claim1 (p : ℕ) [Fact (Nat.Prime p)] (hp2 : 2 < p) (x : ZMod p) :
    ∃ (res : List (AllocatedBit (ZMod p))) (csf : CSState (ZMod p)),
      strictPipeline p Mode.witness x = (.ok ((res.map Boolean.is).reverse), csf) ∧
      res.map AllocatedBit.value = (bitsBE (numBits p) x.val).map some ∧
      SatAll (hintAsg csf) csf.constraints ∧
      (∀ σ : ℕ → ZMod p, SatAll σ csf.constraints →
        ∃ bl : List Bool,
          res.map (fun b => evalVar σ b.var) = bl.map boolF ∧
          lexBE bl (bitsBE (numBits p) (p - 1)) = true) ∧
      (∀ (σ : ℕ → ZMod p) (n : ℕ), p ≤ n → n < 2 ^ numBits p →
        res.map (fun b => evalVar σ b.var) = (bitsBE (numBits p) n).map boolF →
        ¬SatAll σ csf.constraints) := by
  haveI : NeZero p := ⟨by omega⟩
  have h01 : (0 : ZMod p) ≠ 1 := zero_ne_one
  have hL1 : numBits p = (numBits p - 1) + 1 := by
    have h1 : 0 < numBits p := by
      unfold numBits
      rw [Nat.size_pos]
      omega
    omega
  have hplt : p - 1 < 2 ^ numBits p := Nat.lt_size_self (p - 1)
  have hxval : x.val < p := ZMod.val_lt x
  have hxlt : x.val < 2 ^ numBits p := by omega
  have htop : (p - 1).testBit (numBits p - 1) = true := by
    have hlt' : numBits p - 1 < numBits p := by omega
    have h2 : 2 ^ (numBits p - 1) ≤ p - 1 :=
      Nat.lt_size.mp (show numBits p - 1 < (p - 1).size from hlt')
    refine (testBit_high_iff ?_).mpr h2
    rw [← hL1]
    exact hplt
  have hbb : bitsBE (numBits p) (p - 1) =
      true :: bitsBE (numBits p - 1) (p - 1) := by
    conv_lhs => rw [hL1]
    rw [bitsBE_succ, htop]
  have hxb : bitsBE (numBits p) x.val =
      x.val.testBit (numBits p - 1) :: bitsBE (numBits p - 1) x.val := by
    conv_lhs => rw [hL1]
    rw [bitsBE_succ]
  have hg₀ : GoodCS (⟨[some x], []⟩ : CSState (ZMod p)) :=
    ⟨fun c hc => absurd hc (List.not_mem_nil c),
     fun c hc => absurd hc (List.not_mem_nil c)⟩
  obtain ⟨bit₀, cs₁, hrun₁, hcon₁, hE₁, hg₁, hbr₁, hbv₁⟩ :=
    bitAlloc_good hg₀ (x.val.testBit (numBits p - 1))
  have hQfull : QOk (bitsBE (numBits p) (p - 1)) (bitsBE (numBits p) x.val) :=
    QOk_of_le (numBits p) x.val (p - 1) (by omega) hplt
  rw [hbb, hxb] at hQfull
  have hQtail : x.val.testBit (numBits p - 1) = true →
      QOk (bitsBE (numBits p - 1) (p - 1)) (bitsBE (numBits p - 1) x.val) := by
    simpa [QOk] using hQfull
  obtain ⟨st', cs', newBits, hrunT, hres', hE', hg', hf'⟩ :=
    strictLoop_good (bitsBE (numBits p - 1) (p - 1)) (bitsBE (numBits p - 1) x.val)
      ⟨[bit₀], none, [bit₀], true⟩ cs₁ hg₁ rfl
      (fun b hb => by rw [List.mem_singleton.mp hb]; exact hbr₁)
      (fun l hl => absurd hl (by simp))
      (Or.inl (by simp))
      (by
        intro ht
        apply hQtail
        simpa [tightB, hbv₁] using ht)
      (by rw [length_bitsBE, length_bitsBE])
  obtain ⟨newBits₂, Δ, hres₂, hconΔ, hsem⟩ :=
    strictLoop_sound
      ((bitsBE (numBits p - 1) (p - 1)).zip ((bitsBE (numBits p - 1) x.val).map some))
      Mode.witness ⟨[bit₀], none, [bit₀], true⟩ cs₁ st' cs' hrunT rfl
  have hnn : newBits₂ = newBits :=
    List.append_cancel_left (hres₂.symm.trans hres')
  rw [hnn] at hsem
  have hfst : (((bitsBE (numBits p - 1) (p - 1)).zip
      ((bitsBE (numBits p - 1) x.val).map some)).map Prod.fst) =
      bitsBE (numBits p - 1) (p - 1) := by
    refine List.map_fst_zip _ _ ?_
    rw [length_bitsBE, List.length_map, length_bitsBE]
  rw [hfst] at hsem
  have hEcs₀ : Extends (⟨[some x], []⟩ : CSState (ZMod p)) cs' := hE₁.trans hE'
  have hmemres : ∀ b ∈ st'.result, BitReal cs' b := by
    intro b hb
    rw [hres'] at hb
    rcases List.mem_append.mp hb with h1 | h1
    · rw [List.mem_singleton.mp h1]
      exact bitReal_extend hE' hbr₁
    · obtain ⟨v, _, hr⟩ := forall₂_mem_left hf' b h1
      exact hr.1
  have hpartd : ∀ σ : ℕ → ZMod p,
      SatAll σ (cs'.constraints ++
        [⟨[], [], packLC 1 ((st'.result.reverse).map AllocatedBit.var) ++
          [(Var.aux 0, -1)]⟩]) →
      ∃ bl : List Bool,
        st'.result.map (fun b => evalVar σ b.var) = bl.map boolF ∧
        lexBE bl (bitsBE (numBits p) (p - 1)) = true := by
    intro σ hs
    have hb₀sat : satC σ (boolConstraint bit₀.var) := by
      apply hs
      apply List.mem_append_left
      rw [hconΔ, hcon₁]
      simp
    have hΔsat : SatAll σ Δ := by
      intro c hc
      apply hs
      apply List.mem_append_left
      rw [hconΔ]
      exact List.mem_append_right _ hc
    have hb₀bool := boolC_sound hb₀sat
    obtain ⟨hAB, hQimp⟩ := hsem σ hΔsat
      (fun bb hbb' => by rw [List.mem_singleton.mp hbb']; exact hb₀bool)
      (fun l hl => absurd hl (by simp))
    have hABres : AllBool σ st'.result := by
      rw [hres']
      intro r hr
      rcases List.mem_append.mp hr with h1 | h1
      · rw [List.mem_singleton.mp h1]
        exact hb₀bool
      · exact hAB r h1
    refine ⟨st'.result.map (fun r => decide (evalVar σ r.var = 1)),
      eval_boolF_repr h01 st'.result hABres, ?_⟩
    apply lexBE_of_QOk
    rw [hbb, hres']
    simp only [List.map_append, List.map_cons, List.map_nil, List.singleton_append,
      List.cons_append, List.nil_append]
    simp only [QOk]
    intro hd
    have h1 : evalVar σ bit₀.var = 1 := of_decide_eq_true hd
    have hQF : QOkF σ (bitsBE (numBits p - 1) (p - 1)) newBits := by
      apply hQimp
      refine ⟨?_, ?_⟩
      · intro bb hbb'
        rw [List.mem_singleton.mp hbb']
        exact h1
      · intro l hl
        exact absurd hl (by simp)
    exact QOk_of_QOkF h01 (bitsBE (numBits p - 1) (p - 1)) newBits hQF
  refine ⟨st'.result,
    ⟨cs'.hints, cs'.constraints ++
      [⟨[], [], packLC 1 ((st'.result.reverse).map AllocatedBit.var) ++
        [(Var.aux 0, -1)]⟩]⟩,
    ?_, ?_, ?_, hpartd, ?_⟩
  · unfold strictPipeline
    simp only [CSM.bind_def, alloc_run x ⟨[], []⟩]
    unfold to_bits_le_strict
    simp only [List.length_nil, List.nil_append]
    rw [hbb, hxb]
    simp only [List.map_cons, List.zip_cons_cons]
    rw [strictLoop]
    simp only [Bool.or_true, Bool.not_true, Bool.false_eq_true, if_false,
      eq_self_iff_true, if_true]
    simp only [CSM.bind_def, hrun₁, List.nil_append]
    simp only [CSM.bind_def, hrunT]
    simp [enforceM, CSM.pure_def]
  · rw [hres', hxb]
    have hvals : newBits.map AllocatedBit.value =
        (bitsBE (numBits p - 1) x.val).map some :=
      Forall₂_value_map (List.Forall₂.imp (fun a b h => h.2) hf')
    simp [hbv₁, hvals]
  · have hevals : List.Forall₂
        (fun (v : Var) (b : Bool) => evalVar (hintAsg cs') v = boolF b)
        ((st'.result.reverse).map AllocatedBit.var) (bitsLE (numBits p) x.val) := by
      have hone : List.Forall₂ (fun (bitA : AllocatedBit (ZMod p)) (b : Bool) =>
          evalVar (hintAsg cs') bitA.var = boolF b) st'.result
          (bitsBE (numBits p) x.val) := by
        rw [hres', hxb]
        refine List.Forall₂.cons ?_ ?_
        · obtain ⟨bv, hbv, he⟩ := (bitReal_extend hE' hbr₁).evalVar
          rw [hbv₁] at hbv
          obtain rfl : x.val.testBit (numBits p - 1) = bv :=
            Option.some_injective _ hbv
          exact he
        · refine List.Forall₂.imp ?_ hf'
          intro bitA b h
          obtain ⟨hbR, hbV⟩ := h
          obtain ⟨bv, hbv, he⟩ := hbR.evalVar
          rw [hbV] at hbv
          obtain rfl : b = bv := Option.some_injective _ hbv
          exact he
      have hrev := forall₂_reverse hone
      rw [bitsBE_reverse] at hrev
      exact forall₂_map_left hrev
    have hsum : sumBitsF (bitsLE (numBits p) x.val) = x := by
      rw [sumBitsF_cast, ofBitsLE_bitsLE _ _ hxlt]
      exact ZMod.natCast_rightInverse x
    have hσ0 : hintAsg cs' 0 = x := by
      rw [hintAsg_extend hEcs₀ (by simp)]
      rfl
    have hCb : CBound cs'.hints.length
        (⟨[], [], packLC 1 ((st'.result.reverse).map AllocatedBit.var) ++
          [(Var.aux 0, -1)]⟩ : Constraint (ZMod p)) := by
      refine ⟨fun t ht => absurd ht (List.not_mem_nil t),
        fun t ht => absurd ht (List.not_mem_nil t), ?_⟩
      intro t ht
      rcases List.mem_append.mp ht with h | h
      · refine packLC_bound _ _ ?_ t h
        intro v hv
        rw [List.mem_map] at hv
        obtain ⟨bitA, hbit, rfl⟩ := hv
        rw [List.mem_reverse] at hbit
        exact (hmemres bitA hbit).varBound
      · rw [List.mem_singleton.mp h]
        show (0 : ℕ) < cs'.hints.length
        have h1 : (1 : ℕ) ≤ cs'.hints.length := by
          have := hEcs₀.length_le
          simpa using this
        omega
    have hsatp : satC (hintAsg cs')
        (⟨[], [], packLC 1 ((st'.result.reverse).map AllocatedBit.var) ++
          [(Var.aux 0, -1)]⟩ : Constraint (ZMod p)) := by
      unfold satC
      simp only [evalLC_nil, evalLC_append, evalLC_cons, evalVar_aux]
      rw [evalLC_packLC (hintAsg cs') hevals 1, hsum, hσ0]
      simp
    exact (good_enforce hg' hCb hsatp).2
  · intro σ n hpn hn2 hrepr hs
    obtain ⟨bl, hrep', hlex⟩ := hpartd σ hs
    have hbl : bl = bitsBE (numBits p) n :=
      map_boolF_inj h01 (hrep'.symm.trans hrepr)
    subst hbl
    have hle := lexBE_le (bitsBE (numBits p) n) (bitsBE (numBits p) (p - 1))
      (by rw [length_bitsBE, length_bitsBE]) hlex
    rw [bitsBE_reverse, bitsBE_reverse, ofBitsLE_bitsLE _ _ hn2,
      ofBitsLE_bitsLE _ _ hplt] at hle
    omega

/-- Witness for C1 at `p = 13`, `x = 12 = p − 1` (the maximal representable value). -/
theorem claim1_witness :
    ∃ (res : List (AllocatedBit (ZMod 13))) (csf : CSState (ZMod 13)),
      strictPipeline 13 Mode.witness 12 = (.ok ((res.map Boolean.is).reverse), csf) ∧
      res.map AllocatedBit.value = (bitsBE (numBits 13) (12 : ZMod 13).val).map some ∧
      SatAll (hintAsg csf) csf.constraints ∧
      (∀ σ : ℕ → ZMod 13, SatAll σ csf.constraints →
        ∃ bl : List Bool,
          res.map (fun b => evalVar σ b.var) = bl.map boolF ∧
          lexBE bl (bitsBE (numBits 13) (13 - 1)) = true) ∧
      (∀ (σ : ℕ → ZMod 13) (n : ℕ), 13 ≤ n → n < 2 ^ numBits 13 →
        res.map (fun b => evalVar σ b.var) = (bitsBE (numBits 13) n).map boolF →
        ¬SatAll σ csf.constraints) := by
  haveI : Fact (Nat.Prime 13) := ⟨by norm_num⟩
  exact claim1 13 (by norm_num) 12

end BP


